import Mathlib

/-!
Verification of the temporal extraction and interval engine.

Times of day are modelled as minutes, as integers: the source manipulates
`datetime` values on a single civil date and formats them with
`strftime('%H:%M')`; on one date, comparison, `max`/`min` and addition or
subtraction of minute durations on such values agree with integer
arithmetic on minutes.  The handler's `"HH:MM"` string comparisons
(`max(start_time, "08:00")` etc.) agree with numeric comparison on
zero-padded canonical strings, which is what the normalizer produces.
-/

/-- Calendar event as built by `get_events_for_time_range`
(calendar_service.py lines 352-371): a title, a location, the all-day
flag (`is_all_day` is true exactly when the start is a bare date, in
which case `find_free_slots_for_day` expands it to the full civil day),
and, for timed events, start and end in minutes on the day. -/
structure BusyEvent where
  title : String
  location : String
  is_all_day : Bool
  startMin : Int
  endMin : Int
deriving DecidableEq, Repr

/-- Membership of an instant in a half-open interval `[p.1, p.2)`. -/
def inIv (t : Int) (p : Int × Int) : Prop := p.1 ≤ t ∧ t < p.2

instance (t : Int) (p : Int × Int) : Decidable (inIv t p) := by
  unfold inIv; infer_instance

/-- Two intervals are disjoint when no instant lies in both. -/
def IvDisj (p q : Int × Int) : Prop := ∀ t : Int, ¬(inIv t p ∧ inIv t q)

/-- Clipping of one event to the bounding window, calendar_service.py
lines 416-463: a timed event is dropped when it does not overlap the
window and clipped to `(max start ws, min end we)` otherwise; a date-typed
(all-day) event first becomes the full civil day `[0, 1440)` and is then
clipped the same way. -/
def clip_event (start_dt end_dt : Int) (e : BusyEvent) : Option (Int × Int) :=
  if e.is_all_day then
    if 1440 ≤ start_dt ∨ 0 ≥ end_dt then none
    else some (max 0 start_dt, min 1440 end_dt)
  else
    if e.endMin ≤ start_dt ∨ e.startMin ≥ end_dt then none
    else some (max e.startMin start_dt, min e.endMin end_dt)

/-- The `busy_times` list of calendar_service.py lines 404-463. -/
def busy_times (start_dt end_dt : Int) (events : List BusyEvent) : List (Int × Int) :=
  events.filterMap (clip_event start_dt end_dt)

/-- The sweep of calendar_service.py lines 481-504: walk the sorted busy
list keeping a cursor; emit a free interval whenever the cursor is left
of the next busy start; finally emit the tail up to the window end. -/
def sweep (end_dt : Int) : Int → List (Int × Int) → List (Int × Int)
  | cur, [] => if cur < end_dt then [(cur, end_dt)] else []
  | cur, (bs, be) :: rest =>
    if cur < bs then (cur, bs) :: sweep end_dt (max cur be) rest
    else sweep end_dt (max cur be) rest

/-- `sorted(busy_times, key=lambda x: x[0])` (line 478): a stable sort by
start time. -/
def sortStart (l : List (Int × Int)) : List (Int × Int) :=
  List.insertionSort (fun p q => p.1 ≤ q.1) l

/-- `find_free_slots_for_day` (calendar_service.py lines 383-507): with no
events (or no busy interval surviving the clipping) the whole window is
free; otherwise clip, sort by start and sweep. -/
def find_free_slots_for_day (start_dt end_dt : Int) (events : List BusyEvent) :
    List (Int × Int) :=
  if events = [] then [(start_dt, end_dt)]
  else
    let bt := busy_times start_dt end_dt events
    if bt = [] then [(start_dt, end_dt)]
    else sweep end_dt start_dt (sortStart bt)

/-- Python's `needle in hay` on strings, on exploded character lists:
`strStarts n h` holds when `n` is an initial segment of `h`. -/
def strStarts : List Char → List Char → Bool
  | [], _ => true
  | _ :: _, [] => false
  | a :: as, b :: bs => a == b && strStarts as bs

/-- Substring occurrence: `n` starts at some position of `h`. -/
def strHas (n : List Char) : List Char → Bool
  | [] => strStarts n []
  | b :: bs => strStarts n (b :: bs) || strHas n bs

/-- Python's substring test `needle in hay`. -/
def pyIn (needle hay : String) : Bool := strHas needle.toList hay.toList

/-- The per-event test of line_bot_handler.py line 639: an all-day event
whose location or title contains the requested location. -/
def matches_location (loc : String) (e : BusyEvent) : Bool :=
  e.is_all_day && (pyIn loc e.location || pyIn loc e.title)

/-- `has_location_event` of line_bot_handler.py lines 632-641. -/
def has_location_event (loc : String) (evs : List BusyEvent) : Bool :=
  evs.any (matches_location loc)

/-- The `filtered_events` built under an active location filter,
line_bot_handler.py lines 633-645: every event except the matching
all-day markers is kept. -/
def filtered_events_with_location (loc : String) (evs : List BusyEvent) :
    List BusyEvent :=
  evs.filter (fun e => !(matches_location loc e))

/-- The `filtered_events` built without a location filter,
line_bot_handler.py lines 656-665: all-day events are dropped. -/
def filtered_events_no_location (evs : List BusyEvent) : List BusyEvent :=
  evs.filter (fun e => !e.is_all_day)

/-- The event set actually passed to the free-slot search for one date,
line_bot_handler.py lines 628-666.  `none` means the date is skipped
(`continue` at line 650). -/
def events_for_free_search (loc : Option String) (evs : List BusyEvent) :
    Option (List BusyEvent) :=
  match loc with
  | some l =>
    if has_location_event l evs then some (filtered_events_with_location l evs)
    else none
  | none => some (filtered_events_no_location evs)

/-- Travel-margin post-processing, line_bot_handler.py lines 687-714: each
free slot is shrunk by the travel time on both sides and kept only when
the shrunk interval still has positive length. -/
def travel_filtered_slots (t : Int) (slots : List (Int × Int)) : List (Int × Int) :=
  slots.filterMap fun s =>
    if s.1 + t < s.2 - t then some (s.1 + t, s.2 - t) else none

/-- Per-frame free-slot computation, line_bot_handler.py lines 668-724:
the frame is clamped to `[max(start, 08:00), min(end, 23:59)]`; an empty
clamped range yields no slots; otherwise the calculator runs on the
clamped window and, when a positive travel time is given, the travel
margin is applied. -/
def frame_free_slots (start_time end_time : Int) (events : List BusyEvent)
    (travel : Option Int) : List (Int × Int) :=
  let slot_start := max start_time 480
  let slot_end := min end_time 1439
  if slot_start < slot_end then
    let fs := find_free_slots_for_day slot_start slot_end events
    match travel with
    | some t => if 0 < t then travel_filtered_slots t fs else fs
    | none => fs
  else []

/-- Exact tiling of the window `[ws, we)` by a list of pieces: every
instant of the window lies in some piece, every instant of a piece lies
in the window, and the pieces are pairwise disjoint. -/
def TilesWindow (ws we : Int) (ps : List (Int × Int)) : Prop :=
  (∀ t : Int, (ws ≤ t ∧ t < we) ↔ ∃ p ∈ ps, inIv t p) ∧ List.Pairwise IvDisj ps

theorem IvDisj_symm {p q : Int × Int} (h : IvDisj p q) : IvDisj q p :=
  fun t hc => h t ⟨hc.2, hc.1⟩

/-- Every clipped busy interval lies inside the window and is well-formed,
provided the window is ordered and timed events have start before end. -/
theorem busy_times_mem_facts {ws we : Int} (hwin : ws ≤ we) {events : List BusyEvent}
    (hwf : ∀ e ∈ events, e.is_all_day = true ∨ e.startMin ≤ e.endMin)
    {p : Int × Int} (hp : p ∈ busy_times ws we events) :
    ws ≤ p.1 ∧ p.1 ≤ p.2 ∧ p.2 ≤ we ∧ p.1 ≤ we := by
  rcases List.mem_filterMap.mp hp with ⟨e, he, hclip⟩
  unfold clip_event at hclip
  split at hclip
  case isTrue hall =>
    split at hclip
    case isTrue => exact absurd hclip (by simp)
    case isFalse hguard =>
      injection hclip with h
      push_neg at hguard
      subst h
      refine ⟨?_, ?_, ?_, ?_⟩ <;> simp <;> omega
  case isFalse hall =>
    have hse : e.startMin ≤ e.endMin := by
      rcases hwf e he with h | h
      · exact absurd h (by simpa using hall)
      · exact h
    split at hclip
    case isTrue => exact absurd hclip (by simp)
    case isFalse hguard =>
      injection hclip with h
      push_neg at hguard
      subst h
      refine ⟨?_, ?_, ?_, ?_⟩ <;> simp <;> omega

/-- Slots emitted by the sweep stay between the cursor and the window end. -/
theorem sweep_bounds (we : Int) (l : List (Int × Int)) :
    ∀ c : Int, (∀ q ∈ l, q.1 ≤ we) → ∀ p ∈ sweep we c l, c ≤ p.1 ∧ p.2 ≤ we := by
  induction l with
  | nil =>
    intro c _ p hp
    unfold sweep at hp
    split at hp
    · rcases List.mem_singleton.mp hp with rfl
      exact ⟨le_refl _, le_refl _⟩
    · exact absurd hp (List.not_mem_nil p)
  | cons q rest ih =>
    obtain ⟨bs, be⟩ := q
    intro c h p hp
    unfold sweep at hp
    split at hp
    case isTrue hc =>
      rcases List.mem_cons.mp hp with rfl | hp'
      · exact ⟨le_refl _, h (bs, be) (List.mem_cons_self _ _)⟩
      · have := ih (max c be) (fun q hq => h q (List.mem_cons_of_mem _ hq)) p hp'
        exact ⟨le_trans (le_max_left c be) this.1, this.2⟩
    case isFalse =>
      have := ih (max c be) (fun q hq => h q (List.mem_cons_of_mem _ hq)) p hp
      exact ⟨le_trans (le_max_left c be) this.1, this.2⟩

/-- Once the cursor has reached the window end, the sweep emits nothing. -/
theorem sweep_past (we : Int) (l : List (Int × Int)) :
    ∀ c : Int, (∀ q ∈ l, q.1 ≤ we) → we ≤ c → sweep we c l = [] := by
  induction l with
  | nil =>
    intro c _ hc
    unfold sweep
    rw [if_neg (by omega)]
  | cons q rest ih =>
    obtain ⟨bs, be⟩ := q
    intro c h hc
    have hbs : bs ≤ we := h (bs, be) (List.mem_cons_self _ _)
    unfold sweep
    rw [if_neg (by omega)]
    exact ih (max c be) (fun q hq => h q (List.mem_cons_of_mem _ hq))
      (le_trans hc (le_max_left c be))

/-- If some busy interval covers the whole remaining window, the sweep
emits no free slot at all. -/
theorem sweep_all_covered (we : Int) (l : List (Int × Int)) :
    ∀ c : Int, List.Pairwise (fun p q : Int × Int => p.1 ≤ q.1) l →
      (∀ q ∈ l, q.1 ≤ we) → (∃ p ∈ l, p.1 ≤ c ∧ we ≤ p.2) →
      sweep we c l = [] := by
  induction l with
  | nil =>
    intro c _ _ hcov
    rcases hcov with ⟨p, hp, _⟩
    exact absurd hp (List.not_mem_nil p)
  | cons q rest ih =>
    obtain ⟨bs, be⟩ := q
    intro c hsort h hcov
    rw [List.pairwise_cons] at hsort
    rcases hcov with ⟨p, hp, hp1, hp2⟩
    rcases List.mem_cons.mp hp with rfl | hp'
    · unfold sweep
      rw [if_neg (by omega)]
      exact sweep_past we rest (max c be)
        (fun q hq => h q (List.mem_cons_of_mem _ hq))
        (le_trans hp2 (le_max_right c be))
    · have hble : bs ≤ p.1 := hsort.1 p hp'
      unfold sweep
      rw [if_neg (by omega)]
      exact ih (max c be) hsort.2 (fun q hq => h q (List.mem_cons_of_mem _ hq))
        ⟨p, hp', le_trans hp1 (le_max_left c be), hp2⟩

/-- Main sweep specification: for a start-sorted, pairwise-disjoint,
well-formed busy list lying inside `[c, we)`, the sweep's free slots plus
the busy list tile `[c, we)`: they cover exactly the window, free slots
stay within it, and free slots overlap neither each other nor the busy
intervals. -/
theorem sweep_spec (we : Int) (l : List (Int × Int)) :
    ∀ c : Int,
      List.Pairwise (fun p q : Int × Int => p.1 ≤ q.1) l →
      List.Pairwise IvDisj l →
      (∀ p ∈ l, p.1 ≤ p.2) →
      (∀ p ∈ l, ∀ t, inIv t p → c ≤ t) →
      (∀ p ∈ l, p.1 ≤ we ∧ p.2 ≤ we) →
      (∀ t : Int, (c ≤ t ∧ t < we) ↔
          ((∃ p ∈ sweep we c l, inIv t p) ∨ ∃ p ∈ l, inIv t p))
      ∧ (∀ p ∈ sweep we c l, ∀ t, inIv t p → c ≤ t ∧ t < we)
      ∧ List.Pairwise IvDisj (sweep we c l)
      ∧ (∀ f ∈ sweep we c l, ∀ b ∈ l, IvDisj f b) := by
  induction l with
  | nil =>
    intro c _ _ _ _ _
    by_cases hc : c < we
    · refine ⟨?_, ?_, ?_, ?_⟩
      · intro t
        simp only [sweep, if_pos hc, List.mem_singleton, List.not_mem_nil]
        constructor
        · rintro ⟨h1, h2⟩
          exact Or.inl ⟨(c, we), rfl, h1, h2⟩
        · rintro (⟨p, rfl, hip⟩ | ⟨p, hp, _⟩)
          · exact hip
          · exact absurd hp (by simp)
      · intro p hp t ht
        simp only [sweep, if_pos hc, List.mem_singleton] at hp
        subst hp
        exact ht
      · simp [sweep, if_pos hc]
      · intro f _ b hb
        exact absurd hb (List.not_mem_nil b)
    · refine ⟨?_, ?_, ?_, ?_⟩
      · intro t
        simp only [sweep, if_neg hc, List.not_mem_nil]
        constructor
        · rintro ⟨h1, h2⟩
          omega
        · rintro (⟨p, hp, _⟩ | ⟨p, hp, _⟩) <;> exact absurd hp (by simp)
      · intro p hp
        simp [sweep, if_neg hc] at hp
      · simp [sweep, if_neg hc]
      · intro f hf
        simp [sweep, if_neg hc] at hf
  | cons hd rest ih =>
    obtain ⟨bs, be⟩ := hd
    intro c hsort hdisj hwf hlo hup
    rw [List.pairwise_cons] at hsort hdisj
    obtain ⟨hbs, hsort'⟩ := hsort
    obtain ⟨hd0, hdisj'⟩ := hdisj
    have hwfh : bs ≤ be := hwf (bs, be) (List.mem_cons_self _ _)
    have hwf' : ∀ p ∈ rest, p.1 ≤ p.2 := fun p hp => hwf p (List.mem_cons_of_mem _ hp)
    have hloh : ∀ t, inIv t (bs, be) → c ≤ t :=
      fun t ht => hlo (bs, be) (List.mem_cons_self _ _) t ht
    have hlo' : ∀ p ∈ rest, ∀ t, inIv t p → c ≤ t :=
      fun p hp t ht => hlo p (List.mem_cons_of_mem _ hp) t ht
    have huph : bs ≤ we ∧ be ≤ we := hup (bs, be) (List.mem_cons_self _ _)
    have hup' : ∀ p ∈ rest, p.1 ≤ we ∧ p.2 ≤ we :=
      fun p hp => hup p (List.mem_cons_of_mem _ hp)
    have hlo2 : ∀ p ∈ rest, ∀ t, inIv t p → max c be ≤ t := by
      intro p hp t ht
      have h1 : c ≤ t := hlo' p hp t ht
      have h2 : be ≤ t := by
        by_contra h
        push_neg at h
        have hbst : bs ≤ p.1 := hbs p hp
        exact hd0 p hp t ⟨⟨le_trans hbst ht.1, h⟩, ht⟩
      exact max_le h1 h2
    obtain ⟨cov', bnd', pw', fb'⟩ := ih (max c be) hsort' hdisj' hwf' hlo2 hup'
    by_cases hcb : c < bs
    · have hsw : sweep we c ((bs, be) :: rest) = (c, bs) :: sweep we (max c be) rest := by
        have h0 : sweep we c ((bs, be) :: rest) =
            if c < bs then (c, bs) :: sweep we (max c be) rest
            else sweep we (max c be) rest := rfl
        rw [h0, if_pos hcb]
      rw [hsw]
      refine ⟨?_, ?_, ?_, ?_⟩
      · intro t
        constructor
        · rintro ⟨h1, h2⟩
          rcases lt_or_le t bs with h3 | h3
          · exact Or.inl ⟨(c, bs), List.mem_cons_self _ _, h1, h3⟩
          rcases lt_or_le t be with h4 | h4
          · exact Or.inr ⟨(bs, be), List.mem_cons_self _ _, h3, h4⟩
          · rcases (cov' t).mp ⟨max_le h1 h4, h2⟩ with ⟨p, hp, hip⟩ | ⟨p, hp, hip⟩
            · exact Or.inl ⟨p, List.mem_cons_of_mem _ hp, hip⟩
            · exact Or.inr ⟨p, List.mem_cons_of_mem _ hp, hip⟩
        · rintro (⟨p, hp, hip⟩ | ⟨p, hp, hip⟩)
          · rcases List.mem_cons.mp hp with rfl | hp'
            · exact ⟨hip.1, lt_of_lt_of_le hip.2 huph.1⟩
            · have := bnd' p hp' t hip
              exact ⟨le_trans (le_max_left c be) this.1, this.2⟩
          · rcases List.mem_cons.mp hp with rfl | hp'
            · exact ⟨hloh t hip, lt_of_lt_of_le hip.2 huph.2⟩
            · exact ⟨hlo' p hp' t hip, lt_of_lt_of_le hip.2 (hup' p hp').2⟩
      · intro p hp t ht
        rcases List.mem_cons.mp hp with rfl | hp'
        · exact ⟨ht.1, lt_of_lt_of_le ht.2 huph.1⟩
        · have := bnd' p hp' t ht
          exact ⟨le_trans (le_max_left c be) this.1, this.2⟩
      · refine List.Pairwise.cons ?_ pw'
        intro f' hf' t hcontra
        obtain ⟨h1, h2⟩ := hcontra
        have hmt := (bnd' f' hf' t h2).1
        have ht2 := h1.2
        omega
      · intro f hf b hb
        rcases List.mem_cons.mp hf with rfl | hf'
        · rcases List.mem_cons.mp hb with rfl | hb'
          · intro t h
            obtain ⟨h1, h2⟩ := h
            have := h1.2
            have := h2.1
            omega
          · intro t h
            obtain ⟨h1, h2⟩ := h
            have hb1 : bs ≤ b.1 := hbs b hb'
            have := h2.1
            have := h1.2
            omega
        · rcases List.mem_cons.mp hb with rfl | hb'
          · intro t h
            obtain ⟨h1, h2⟩ := h
            have hm := (bnd' f hf' t h1).1
            have := h2.2
            omega
          · exact fb' f hf' b hb'
    · have hsw : sweep we c ((bs, be) :: rest) = sweep we (max c be) rest := by
        have h0 : sweep we c ((bs, be) :: rest) =
            if c < bs then (c, bs) :: sweep we (max c be) rest
            else sweep we (max c be) rest := rfl
        rw [h0, if_neg hcb]
      rw [hsw]
      refine ⟨?_, ?_, ?_, ?_⟩
      · intro t
        constructor
        · rintro ⟨h1, h2⟩
          rcases lt_or_le t be with h4 | h4
          · exact Or.inr ⟨(bs, be), List.mem_cons_self _ _, by omega, h4⟩
          · rcases (cov' t).mp ⟨max_le h1 h4, h2⟩ with ⟨p, hp, hip⟩ | ⟨p, hp, hip⟩
            · exact Or.inl ⟨p, hp, hip⟩
            · exact Or.inr ⟨p, List.mem_cons_of_mem _ hp, hip⟩
        · rintro (⟨p, hp, hip⟩ | ⟨p, hp, hip⟩)
          · have := bnd' p hp t hip
            exact ⟨le_trans (le_max_left c be) this.1, this.2⟩
          · rcases List.mem_cons.mp hp with rfl | hp'
            · exact ⟨hloh t hip, lt_of_lt_of_le hip.2 huph.2⟩
            · exact ⟨hlo' p hp' t hip, lt_of_lt_of_le hip.2 (hup' p hp').2⟩
      · intro p hp t ht
        have := bnd' p hp t ht
        exact ⟨le_trans (le_max_left c be) this.1, this.2⟩
      · exact pw'
      · intro f hf b hb
        rcases List.mem_cons.mp hb with rfl | hb'
        · intro t h
          obtain ⟨h1, h2⟩ := h
          have hm := (bnd' f hf t h1).1
          have := h2.2
          omega
        · exact fb' f hf b hb'

instance : IsTotal (Int × Int) (fun p q : Int × Int => p.1 ≤ q.1) :=
  ⟨fun a b => le_total a.1 b.1⟩

instance : IsTrans (Int × Int) (fun p q : Int × Int => p.1 ≤ q.1) :=
  ⟨fun _ _ _ h1 h2 => le_trans h1 h2⟩

theorem find_free_eq_sweep {ws we : Int} {events : List BusyEvent}
    (hev : events ≠ []) (hbt : busy_times ws we events ≠ []) :
    find_free_slots_for_day ws we events =
      sweep we ws (sortStart (busy_times ws we events)) := by
  unfold find_free_slots_for_day
  rw [if_neg hev]
  show (if busy_times ws we events = [] then [(ws, we)]
    else sweep we ws (sortStart (busy_times ws we events))) = _
  rw [if_neg hbt]

theorem find_free_eq_whole {ws we : Int} {events : List BusyEvent}
    (hev : events ≠ []) (hbt : busy_times ws we events = []) :
    find_free_slots_for_day ws we events = [(ws, we)] := by
  unfold find_free_slots_for_day
  rw [if_neg hev]
  show (if busy_times ws we events = [] then [(ws, we)]
    else sweep we ws (sortStart (busy_times ws we events))) = _
  rw [if_pos hbt]

/-- Clipped busy intervals start no later than the window end (needs only
an ordered window). -/
theorem busy_times_start_le {ws we : Int} (hwin : ws ≤ we) {events : List BusyEvent}
    {p : Int × Int} (hp : p ∈ busy_times ws we events) : p.1 ≤ we := by
  rcases List.mem_filterMap.mp hp with ⟨e, _, hclip⟩
  unfold clip_event at hclip
  split at hclip
  · split at hclip
    · exact absurd hclip (by simp)
    case isFalse hguard =>
      injection hclip with h
      push_neg at hguard
      subst h
      simp
      omega
  · split at hclip
    · exact absurd hclip (by simp)
    case isFalse hguard =>
      injection hclip with h
      push_neg at hguard
      subst h
      simp
      omega

/-- Free slots of the day calculator stay inside the search window. -/
theorem find_free_bounds {ws we : Int} (hwin : ws ≤ we) (evs : List BusyEvent) :
    ∀ p ∈ find_free_slots_for_day ws we evs, ws ≤ p.1 ∧ p.2 ≤ we := by
  intro p hp
  by_cases hev : evs = []
  · subst hev
    simp [find_free_slots_for_day] at hp
    subst hp
    exact ⟨by simp, by simp⟩
  · by_cases hbt : busy_times ws we evs = []
    · rw [find_free_eq_whole hev hbt] at hp
      rcases List.mem_singleton.mp hp with rfl
      exact ⟨by simp, by simp⟩
    · rw [find_free_eq_sweep hev hbt] at hp
      have hperm : (sortStart (busy_times ws we evs)).Perm (busy_times ws we evs) :=
        List.perm_insertionSort _ _
      exact sweep_bounds we _ ws
        (fun q hq => busy_times_start_le hwin (hperm.mem_iff.mp hq)) p hp

/-- Busy intervals that overlap each other, used to refute the tiling
claim: 10:00-12:00 and 11:00-13:00 inside the window 09:00-18:00. -/
def c1CexEvents : List BusyEvent :=
  [⟨"", "", false, 600, 720⟩, ⟨"", "", false, 660, 780⟩]

/-- Claim C1 (counterexample): for the window 09:00-18:00 and the
overlapping busy intervals 10:00-12:00 and 11:00-13:00, the free slots
plus the clipped busy intervals do NOT tile the window: the two clipped
busy pieces both contain 11:40, so the pieces are not pairwise disjoint. -/
theorem c1_tiling_counterexample :
    ¬ TilesWindow 540 1080
      (find_free_slots_for_day 540 1080 c1CexEvents ++ busy_times 540 1080 c1CexEvents) := by
  intro h
  have hpieces : find_free_slots_for_day 540 1080 c1CexEvents ++
      busy_times 540 1080 c1CexEvents
      = [(540, 600), (780, 1080), (600, 720), (660, 780)] := by decide
  have h2 := h.2
  rw [hpieces] at h2
  rcases h2 with _ | ⟨_, h2⟩
  rcases h2 with _ | ⟨_, h2⟩
  rcases h2 with _ | ⟨h3, _⟩
  have hd := h3 (660, 780) (List.mem_singleton_self _)
  exact hd 700 ⟨⟨by norm_num, by norm_num⟩, ⟨by norm_num, by norm_num⟩⟩

/-- Claim C1 (amended): for every window `[ws, we)` with `ws ≤ we`, every
event list whose timed events are well-formed, and whose clipped busy
intervals are pairwise disjoint, the free intervals returned by
`find_free_slots_for_day` together with the clipped busy intervals
exactly tile the window.  (When busy intervals overlap each other the
clipped pieces themselves overlap, so the disjointness hypothesis is
necessary; the union part still holds in general.) -/
theorem c1_tiling_amended (ws we : Int) (events : List BusyEvent)
    (hwin : ws ≤ we)
    (hevwf : ∀ e ∈ events, e.is_all_day = true ∨ e.startMin ≤ e.endMin)
    (hdisj : List.Pairwise IvDisj (busy_times ws we events)) :
    TilesWindow ws we
      (find_free_slots_for_day ws we events ++ busy_times ws we events) := by
  by_cases hev : events = []
  · subst hev
    refine ⟨?_, ?_⟩
    · intro t
      constructor
      · rintro ⟨h1, h2⟩
        exact ⟨(ws, we), by simp [find_free_slots_for_day, busy_times], h1, h2⟩
      · rintro ⟨p, hp, hip⟩
        simp [find_free_slots_for_day, busy_times] at hp
        subst hp
        exact hip
    · simp [find_free_slots_for_day, busy_times]
  · by_cases hbt : busy_times ws we events = []
    · rw [find_free_eq_whole hev hbt, hbt]
      refine ⟨?_, ?_⟩
      · intro t
        constructor
        · rintro ⟨h1, h2⟩
          exact ⟨(ws, we), by simp, h1, h2⟩
        · rintro ⟨p, hp, hip⟩
          simp at hp
          subst hp
          exact hip
      · simp
    · have hperm : (sortStart (busy_times ws we events)).Perm (busy_times ws we events) :=
        List.perm_insertionSort _ _
      have hfacts : ∀ p ∈ busy_times ws we events,
          ws ≤ p.1 ∧ p.1 ≤ p.2 ∧ p.2 ≤ we ∧ p.1 ≤ we :=
        fun p hp => busy_times_mem_facts hwin hevwf hp
      have hfacts' : ∀ p ∈ sortStart (busy_times ws we events),
          ws ≤ p.1 ∧ p.1 ≤ p.2 ∧ p.2 ≤ we ∧ p.1 ≤ we :=
        fun p hp => hfacts p (hperm.mem_iff.mp hp)
      have hsorted : List.Pairwise (fun p q : Int × Int => p.1 ≤ q.1)
          (sortStart (busy_times ws we events)) :=
        List.sorted_insertionSort _ _
      have hdisj' : List.Pairwise IvDisj (sortStart (busy_times ws we events)) :=
        (hperm.pairwise_iff (fun h => IvDisj_symm h)).mpr hdisj
      obtain ⟨cov, bnd, pw, fb⟩ := sweep_spec we (sortStart (busy_times ws we events)) ws
        hsorted hdisj'
        (fun p hp => (hfacts' p hp).2.1)
        (fun p hp t ht => le_trans (hfacts' p hp).1 ht.1)
        (fun p hp => ⟨(hfacts' p hp).2.2.2, (hfacts' p hp).2.2.1⟩)
      rw [find_free_eq_sweep hev hbt]
      refine ⟨?_, ?_⟩
      · intro t
        constructor
        · rintro ⟨h1, h2⟩
          rcases (cov t).mp ⟨h1, h2⟩ with ⟨p, hp, hip⟩ | ⟨p, hp, hip⟩
          · exact ⟨p, List.mem_append_left _ hp, hip⟩
          · exact ⟨p, List.mem_append_right _ (hperm.mem_iff.mp hp), hip⟩
        · rintro ⟨p, hp, hip⟩
          rcases List.mem_append.mp hp with hp' | hp'
          · exact (cov t).mpr (Or.inl ⟨p, hp', hip⟩)
          · have hf := hfacts p hp'
            exact ⟨le_trans hf.1 hip.1, lt_of_lt_of_le hip.2 hf.2.2.1⟩
      · rw [List.pairwise_append]
        refine ⟨pw, hdisj, ?_⟩
        intro f hf b hb
        exact fb f hf b (hperm.mem_iff.mpr hb)

/-- The two timed busy events of spec scenario C: 10:00-11:00 and
14:00-14:30. -/
def scenarioCEvents : List BusyEvent :=
  [⟨"", "", false, 600, 660⟩, ⟨"", "", false, 840, 870⟩]

theorem c1_tiling_amended_witness :
    TilesWindow 540 1080
      (find_free_slots_for_day 540 1080 scenarioCEvents ++
        busy_times 540 1080 scenarioCEvents) := by
  have hd : List.Pairwise IvDisj [((600 : Int), (660 : Int)), (840, 870)] := by
    refine List.Pairwise.cons ?_ (List.pairwise_singleton _ _)
    intro b hb t hcontra
    rcases List.mem_singleton.mp hb with rfl
    obtain ⟨⟨h1, h2⟩, h3, h4⟩ := hcontra
    omega
  exact c1_tiling_amended 540 1080 scenarioCEvents (by decide) (by decide)
    (by rw [show busy_times 540 1080 scenarioCEvents
        = [(600, 660), (840, 870)] from rfl]; exact hd)

/-- Propositional form of `matches_location`. -/
theorem matches_location_eq (loc : String) (e : BusyEvent) :
    matches_location loc e = true ↔
      e.is_all_day = true ∧ (pyIn loc e.location = true ∨ pyIn loc e.title = true) := by
  simp [matches_location]

/-- Two all-day markers: one whose title contains the requested location
東京, one whose title does not. -/
def c2CexEvents : List BusyEvent :=
  [⟨"東京出張", "", true, 0, 1440⟩, ⟨"大阪会議", "", true, 0, 1440⟩]

/-- Claim C2 (counterexample): with location filter 東京 active on
`c2CexEvents`, the non-matching all-day event 大阪会議 is NOT excluded
from the busy set used in the sweep — it survives the filter — and,
being expanded to the full day, it wipes out all free time in the
09:00-18:00 window, so in filtered mode an all-day interval does
subtract from free time. -/
theorem c2_location_counterexample :
    (¬ ∀ e ∈ filtered_events_with_location "東京" c2CexEvents,
        e.is_all_day = true → matches_location "東京" e = true)
    ∧ events_for_free_search (some "東京") c2CexEvents
        = some [⟨"大阪会議", "", true, 0, 1440⟩]
    ∧ find_free_slots_for_day 540 1080
        (filtered_events_with_location "東京" c2CexEvents) = [] := by
  refine ⟨?_, by rfl, by decide⟩
  intro h
  exact absurd (h ⟨"大阪会議", "", true, 0, 1440⟩ (by decide) rfl) (by decide)

/-- Claim C2 (amended): with a location filter active, a date is included
exactly when some all-day interval's title or location contains the
filter string; every matching all-day interval is removed from the busy
set; without a filter every all-day interval is removed; but with a
filter active a non-matching all-day interval stays in the busy set, and
any surviving all-day interval wipes out the whole window's free time. -/
theorem c2_location_amended (loc : String) (evs : List BusyEvent) :
    (events_for_free_search (some loc) evs = none ↔
      ∀ e ∈ evs, ¬(e.is_all_day = true ∧
        (pyIn loc e.location = true ∨ pyIn loc e.title = true)))
    ∧ (∀ e, e ∈ filtered_events_with_location loc evs ↔
        e ∈ evs ∧ ¬(e.is_all_day = true ∧
          (pyIn loc e.location = true ∨ pyIn loc e.title = true)))
    ∧ (∀ e, e ∈ filtered_events_no_location evs ↔ e ∈ evs ∧ e.is_all_day = false)
    ∧ (∀ ws we : Int, 0 ≤ ws → ws < we → we ≤ 1440 →
        (∃ e ∈ filtered_events_with_location loc evs, e.is_all_day = true) →
        find_free_slots_for_day ws we (filtered_events_with_location loc evs) = []) := by
  refine ⟨?_, ?_, ?_, ?_⟩
  · have h0 : events_for_free_search (some loc) evs
        = if has_location_event loc evs = true then
            some (filtered_events_with_location loc evs)
          else none := rfl
    rw [h0]
    by_cases hl : has_location_event loc evs = true
    · rw [if_pos hl]
      simp only [has_location_event, List.any_eq_true] at hl
      rcases hl with ⟨e, he, hm⟩
      constructor
      · intro h
        exact absurd h (by simp)
      · intro h
        exact absurd ((matches_location_eq loc e).mp hm) (h e he)
    · rw [if_neg hl]
      simp only [has_location_event, List.any_eq_true] at hl
      push_neg at hl
      exact ⟨fun _ e he hc => hl e he ((matches_location_eq loc e).mpr hc), fun _ => rfl⟩
  · intro e
    rw [filtered_events_with_location, List.mem_filter]
    simp only [Bool.not_eq_true']
    constructor
    · rintro ⟨h1, h2⟩
      refine ⟨h1, fun hc => ?_⟩
      rw [(matches_location_eq loc e).mpr hc] at h2
      cases h2
    · rintro ⟨h1, h2⟩
      refine ⟨h1, ?_⟩
      cases hml : matches_location loc e
      · rfl
      · exact absurd ((matches_location_eq loc e).mp hml) h2
  · intro e
    simp [filtered_events_no_location, List.mem_filter]
  · intro ws we hws hlt hwe hex
    rcases hex with ⟨e, he, hall⟩
    have hclip : clip_event ws we e = some (ws, we) := by
      unfold clip_event
      rw [if_pos hall, if_neg (by omega)]
      have h1 : max (0 : Int) ws = ws := by omega
      have h2 : min (1440 : Int) we = we := by omega
      rw [h1, h2]
    have hmem : (ws, we) ∈ busy_times ws we (filtered_events_with_location loc evs) :=
      List.mem_filterMap.mpr ⟨e, he, hclip⟩
    have hev : filtered_events_with_location loc evs ≠ [] := List.ne_nil_of_mem he
    have hbt : busy_times ws we (filtered_events_with_location loc evs) ≠ [] :=
      List.ne_nil_of_mem hmem
    rw [find_free_eq_sweep hev hbt]
    have hperm := List.perm_insertionSort (fun p q : Int × Int => p.1 ≤ q.1)
      (busy_times ws we (filtered_events_with_location loc evs))
    exact sweep_all_covered we _ ws (List.sorted_insertionSort _ _)
      (fun q hq => busy_times_start_le (le_of_lt hlt) (hperm.mem_iff.mp hq))
      ⟨(ws, we), hperm.mem_iff.mpr hmem, le_refl _, le_refl _⟩

theorem c2_location_amended_witness :
    (events_for_free_search (some "東京") [] = none)
    ∧ find_free_slots_for_day 540 1080
        (filtered_events_with_location "東京" c2CexEvents) = [] := by
  constructor
  · exact (c2_location_amended "東京" []).1.mpr (by intro e he hc; cases he)
  · exact (c2_location_amended "東京" c2CexEvents).2.2.2 540 1080 (by decide) (by decide)
      (by decide) ⟨⟨"大阪会議", "", true, 0, 1440⟩, by decide, rfl⟩

/-- Claim C5: for a positive travel time, the reported intervals are
exactly the sweep's free intervals shrunk by the travel time on both
sides, an interval being dropped exactly when the shrunk interval has
non-positive length; and spec scenario D — window 09:00-18:00, busy
[(10:00,11:00),(14:00,14:30)], 30 minutes travel — yields exactly
[(11:30,13:30),(15:00,17:30)], the 09:00-10:00 slot being dropped. -/
theorem c5_travel_margin (t : Int) (_ht : 0 < t) (slots : List (Int × Int)) :
    (∀ p : Int × Int, p ∈ travel_filtered_slots t slots ↔
        ∃ s ∈ slots, s.1 + t < s.2 - t ∧ p = (s.1 + t, s.2 - t))
    ∧ find_free_slots_for_day 540 1080 scenarioCEvents
        = [(540, 600), (660, 840), (870, 1080)]
    ∧ frame_free_slots 540 1080 scenarioCEvents (some 30)
        = [(690, 810), (900, 1050)] := by
  refine ⟨?_, by decide, by decide⟩
  intro p
  constructor
  · intro hp
    rcases List.mem_filterMap.mp hp with ⟨s, hs, hf⟩
    by_cases hc : s.1 + t < s.2 - t
    · rw [if_pos hc] at hf
      injection hf with hf
      exact ⟨s, hs, hc, hf.symm⟩
    · rw [if_neg hc] at hf
      exact absurd hf (by simp)
  · rintro ⟨s, hs, hc, rfl⟩
    exact List.mem_filterMap.mpr ⟨s, hs, by rw [if_pos hc]⟩

theorem c5_travel_margin_witness :
    ((0 : Int) < 30)
    ∧ frame_free_slots 540 1080 scenarioCEvents (some 30) = [(690, 810), (900, 1050)] :=
  ⟨by decide, (c5_travel_margin 30 (by decide) []).2.2⟩

/-- Unfolding equation for `frame_free_slots`. -/
theorem frame_free_slots_eq (s e : Int) (evs : List BusyEvent) (tr : Option Int) :
    frame_free_slots s e evs tr =
      if max s 480 < min e 1439 then
        match tr with
        | some t =>
          if 0 < t then
            travel_filtered_slots t (find_free_slots_for_day (max s 480) (min e 1439) evs)
          else find_free_slots_for_day (max s 480) (min e 1439) evs
        | none => find_free_slots_for_day (max s 480) (min e 1439) evs
      else [] := rfl

/-- Claim C10: the window actually used for the free-time computation of
a frame is the clamp `[max(frameStart, 08:00), min(frameEnd, 23:59)]`:
every reported free interval lies within the clamped range (so free time
before 08:00 or after 23:59 is never reported), and a frame whose
clamped range is empty yields an empty free-slot list. -/
theorem c10_frame_clamp (s e : Int) (evs : List BusyEvent) (tr : Option Int) :
    (∀ p ∈ frame_free_slots s e evs tr, max s 480 ≤ p.1 ∧ p.2 ≤ min e 1439)
    ∧ (min e 1439 ≤ max s 480 → frame_free_slots s e evs tr = []) := by
  constructor
  · intro p hp
    rw [frame_free_slots_eq] at hp
    by_cases hcl : max s 480 < min e 1439
    · rw [if_pos hcl] at hp
      have hbase : ∀ q ∈ find_free_slots_for_day (max s 480) (min e 1439) evs,
          max s 480 ≤ q.1 ∧ q.2 ≤ min e 1439 :=
        find_free_bounds (le_of_lt hcl) evs
      rcases tr with _ | t
      · exact hbase p hp
      · have hp' : p ∈
            (if 0 < t then
              travel_filtered_slots t (find_free_slots_for_day (max s 480) (min e 1439) evs)
            else find_free_slots_for_day (max s 480) (min e 1439) evs) := hp
        by_cases htt : 0 < t
        · rw [if_pos htt] at hp'
          rcases List.mem_filterMap.mp hp' with ⟨q, hq, hf⟩
          by_cases hc : q.1 + t < q.2 - t
          · rw [if_pos hc] at hf
            injection hf with hf
            subst hf
            have := hbase q hq
            constructor
            · simp
              omega
            · simp
              omega
          · rw [if_neg hc] at hf
            exact absurd hf (by simp)
        · rw [if_neg htt] at hp'
          exact hbase p hp'
    · rw [if_neg hcl] at hp
      exact absurd hp (List.not_mem_nil p)
  · intro hle
    rw [frame_free_slots_eq, if_neg (not_lt.mpr hle)]

theorem c10_frame_clamp_witness :
    (max (540 : Int) 480 ≤ 690 ∧ (810 : Int) ≤ min 1080 1439)
    ∧ frame_free_slots 100 90 [] none = [] :=
  ⟨(c10_frame_clamp 540 1080 scenarioCEvents (some 30)).1 (690, 810) (by decide),
    (c10_frame_clamp 100 90 [] none).2 (by decide)⟩

/-- Civil date (proleptic Gregorian), as Python's `datetime.date`. -/
structure Date where
  year : Nat
  month : Nat
  day : Nat
deriving DecidableEq, Repr

def isLeap (y : Nat) : Bool := y % 4 == 0 && (y % 100 != 0 || y % 400 == 0)

def daysInMonth (y m : Nat) : Nat :=
  if m = 2 then (if isLeap y then 29 else 28)
  else if m = 4 ∨ m = 6 ∨ m = 9 ∨ m = 11 then 30
  else 31

/-- Successor day in the Gregorian calendar. -/
def nextDay (d : Date) : Date :=
  if d.day < daysInMonth d.year d.month then ⟨d.year, d.month, d.day + 1⟩
  else if d.month < 12 then ⟨d.year, d.month + 1, 1⟩
  else ⟨d.year + 1, 1, 1⟩

/-- `now + timedelta(days=k)` on the date part. -/
def addDays (d : Date) (k : Nat) : Date := Nat.iterate nextDay k d

def daysBeforeMonth (y m : Nat) : Nat :=
  (List.range (m - 1)).foldl (fun acc i => acc + daysInMonth y (i + 1)) 0

/-- Python `date.toordinal`: 0001-01-01 is day 1. -/
def toOrdinal (d : Date) : Nat :=
  365 * (d.year - 1) + (d.year - 1) / 4 - (d.year - 1) / 100 + (d.year - 1) / 400
    + daysBeforeMonth d.year d.month + d.day

/-- Python `date.weekday()`: Monday is 0; 0001-01-01 (ordinal 1) is a Monday. -/
def pyWeekday (d : Date) : Nat := (toOrdinal d + 6) % 7

/-- `f"{n:02d}"` for `n < 100`. -/
def pad2 (n : Nat) : String := if n < 10 then "0" ++ toString n else toString n

/-- `strftime('%Y-%m-%d')` (years of practical size are unpadded as in glibc). -/
def fmtDate (d : Date) : String :=
  toString d.year ++ "-" ++ pad2 d.month ++ "-" ++ pad2 d.day

/-- `strftime('%H:%M')` from hour and minute. -/
def fmtHM (h m : Nat) : String := pad2 h ++ ":" ++ pad2 m

/-- `strftime('%H:%M')` of a time given in minutes since midnight. -/
def fmtMinutes (t : Nat) : String := fmtHM (t / 60) (t % 60)

/-- The request-scoped current moment `datetime.now(jst)`: a civil date
plus hour and minute. -/
structure NowDT where
  date : Date
  hour : Nat
  minute : Nat
deriving DecidableEq, Repr

def digit (c : Char) : Option Nat :=
  if c.isDigit then some (c.toNat - 48) else none

/-- `datetime.strptime(s, "%H:%M")`, returning minutes since midnight:
the CPython pattern is `(2[0-3]|[0-1]\d|\d):([0-5]\d|\d)` matched against
the whole string (backtracking from two digits to one). -/
def tryHM (cs : List Char) : Option Nat :=
  let rest2 : Nat → List Char → Option Nat := fun h r =>
    match r with
    | ':' :: m1 :: m2 :: [] =>
      match digit m1, digit m2 with
      | some x, some y => if x * 10 + y ≤ 59 then some (h * 60 + x * 10 + y) else none
      | _, _ => none
    | ':' :: m1 :: [] =>
      match digit m1 with
      | some x => some (h * 60 + x)
      | none => none
    | _ => none
  match cs with
  | c1 :: c2 :: r =>
    match digit c1, digit c2 with
    | some x, some y =>
      if x * 10 + y ≤ 23 then
        match rest2 (x * 10 + y) r with
        | some v => some v
        | none => rest2 x (c2 :: r)
      else rest2 x (c2 :: r)
    | some x, none => rest2 x (c2 :: r)
    | none, _ => none
  | _ => none

/-- `datetime.strptime` on `"%H:%M"` as used inside the normalizer;
failure is a raised `ValueError`. -/
def hmParse (s : String) : Except Unit Nat :=
  match tryHM s.toList with
  | some v => .ok v
  | none => .error ()

/-- `datetime.strptime(s, "%Y-%m-%d")`: exactly four year digits, month
`1[0-2]|0[1-9]|[1-9]`, day `3[01]|[12]\d|0[1-9]|[1-9]`, then the
constructed date must be a real calendar date. -/
def tryDate (cs : List Char) : Option Date :=
  let mk : Nat → Nat → Nat → Option Date := fun y m dv =>
    if 1 ≤ y ∧ 1 ≤ dv ∧ dv ≤ daysInMonth y m then some ⟨y, m, dv⟩ else none
  let dayPart : Nat → Nat → List Char → Option Date := fun y m r =>
    match r with
    | d1 :: d2 :: [] =>
      match digit d1, digit d2 with
      | some a, some b =>
        let dv := a * 10 + b
        if 1 ≤ dv ∧ dv ≤ 31 then mk y m dv else none
      | _, _ => none
    | d1 :: [] =>
      match digit d1 with
      | some a => if 1 ≤ a then mk y m a else none
      | none => none
    | _ => none
  let monthPart : Nat → List Char → Option Date := fun y r =>
    match r with
    | m1 :: m2 :: r2 =>
      match digit m1, digit m2 with
      | some a, some b =>
        let mv := a * 10 + b
        if 1 ≤ mv ∧ mv ≤ 12 then
          match r2 with
          | '-' :: r3 => dayPart y mv r3
          | _ => none
        else none
      | some a, none => if 1 ≤ a ∧ m2 = '-' then dayPart y a r2 else none
      | none, _ => none
    | _ => none
  match cs with
  | y1 :: y2 :: y3 :: y4 :: '-' :: r1 =>
    match digit y1, digit y2, digit y3, digit y4 with
    | some a, some b, some c, some d =>
      monthPart (((a * 10 + b) * 10 + c) * 10 + d) r1
    | _, _, _, _ => none
  | _ => none

/-- Greedy alternatives for the regex fragment `\d{1,2}` at the head of
the input: the two-digit reading first, then the one-digit one. -/
def d12opts : List Char → List (Nat × List Char)
  | a :: b :: r =>
    match digit a, digit b with
    | some x, some y => [(x * 10 + y, r), (x, b :: r)]
    | some x, none => [(x, b :: r)]
    | none, _ => []
  | [a] =>
    match digit a with
    | some x => [(x, [])]
    | none => []
  | [] => []

def isSepChar (c : Char) : Bool := c == '-' || c == '〜' || c == '~'

/-- Attempt of `(\d{1,2})[-〜~](\d{1,2})時` at the current position. -/
def rangeAt (cs : List Char) : Option (Nat × Nat) :=
  (d12opts cs).findSome? fun nr =>
    match nr.2 with
    | s :: r2 =>
      if isSepChar s then
        (d12opts r2).findSome? fun nr2 =>
          match nr2.2 with
          | '時' :: _ => some (nr.1, nr2.1)
          | _ => none
      else none
    | [] => none

/-- `re.search(r'(\d{1,2})[-〜~](\d{1,2})時', phrase)` (ai_service.py
line 158). -/
def scanRange : List Char → Option (Nat × Nat)
  | [] => none
  | c :: r =>
    match rangeAt (c :: r) with
    | some v => some v
    | none => scanRange r

/-- Attempt of `(\d{1,2})時以降` at the current position. -/
def ikouAt (cs : List Char) : Option Nat :=
  (d12opts cs).findSome? fun nr =>
    match nr.2 with
    | '時' :: '以' :: '降' :: _ => some nr.1
    | _ => none

/-- `re.search(r'(\d{1,2})時以降', phrase)` (ai_service.py line 163). -/
def scanIkou : List Char → Option Nat
  | [] => none
  | c :: r =>
    match ikouAt (c :: r) with
    | some v => some v
    | none => scanIkou r

/-- Strip a literal word from the head of the input. -/
def stripWord : List Char → List Char → Option (List Char)
  | [], r => some r
  | _ :: _, [] => none
  | a :: as, b :: bs => if a = b then stripWord as bs else none

/-- Attempt of `word(\d{1,2})時` at the current position. -/
def jiAt (word : List Char) (cs : List Char) : Option Nat :=
  match stripWord word cs with
  | some r =>
    (d12opts r).findSome? fun nr =>
      match nr.2 with
      | '時' :: _ => some nr.1
      | _ => none
  | none => none

/-- `re.search(r'今日(\d{1,2})時', phrase)` and the 本日 variant
(ai_service.py lines 187 and 205). -/
def scanWordJi (word : List Char) : List Char → Option Nat
  | [] => jiAt word []
  | c :: r =>
    match jiAt word (c :: r) with
    | some v => some v
    | none => scanWordJi word r

/-- `re.search(r'(本日|今日)(\d{1,2})時', text)` (ai_service.py line 490):
the alternation tries 本日 first at each position. -/
def scanHonKyouJi : List Char → Option Nat
  | [] => none
  | c :: r =>
    match jiAt "本日".toList (c :: r) with
    | some v => some v
    | none =>
      match jiAt "今日".toList (c :: r) with
      | some v => some v
      | none => scanHonKyouJi r

/-- One date entry of the upstream guess, ai_service.py `_supplement_times`.
Fields are the dictionary keys `date`, `time`, `end_time`, `end_date`,
`title`, `description`; `none` models a key that is absent or holds an
empty (falsy) string, matching every `d.get(key)` truthiness test in the
source. -/
structure Entry where
  date : Option String
  time : Option String
  end_time : Option String
  end_date : Option String
  title : Option String
  description : Option String
deriving DecidableEq, Repr

/-- `phrase = d.get('description', '') or original_text` (line 151). -/
def entryPhrase (d : Entry) (raw : String) : String :=
  match d.description with
  | some s => s
  | none => raw

/-- `datetime(year, month, day)`: raises `ValueError` unless the triple is
a real calendar date with year in 1..9999. -/
def pyDate (y m d : Nat) : Except Unit Date :=
  if 1 ≤ y ∧ y ≤ 9999 ∧ 1 ≤ m ∧ m ≤ 12 ∧ 1 ≤ d ∧ d ≤ daysInMonth y m then .ok ⟨y, m, d⟩
  else .error ()

/-- Python semantics of `dt < now` where `dt = datetime(year, month, day)`
is timezone-naive and `now = datetime.now(pytz.timezone('Asia/Tokyo'))` is
timezone-aware: comparing an offset-naive with an offset-aware datetime
raises `TypeError`, unconditionally.  In `_supplement_times` every such
comparison sits inside `try ... except Exception: continue` (lines
277-282, 303-308, 329-334, 358-367, 391-400, 450-459), so the candidate
of that regex match is skipped. -/
def pyLtNaiveAware (_dt : Date) (_now : NowDT) : Except Unit Bool := .error ()

/-- Year inference of patterns 1-3 (e.g. lines 276-282): current year,
rolled to the next year when the date lies strictly in the past.  The
comparison raises `TypeError` (see `pyLtNaiveAware`), so this always
fails in the source. -/
def yearRollDate (now : NowDT) (mon day : Nat) : Except Unit Date := do
  let dt ← pyDate now.date.year mon day
  let lt ← pyLtNaiveAware dt now
  if lt then pyDate (now.date.year + 1) mon day else pure dt

/-- Month inference of the month-less patterns 4-6 (e.g. lines 356-365):
current month, rolled to the next month (December to January of the next
year) when the date lies strictly in the past.  The comparison raises
`TypeError` (see `pyLtNaiveAware`), so this always fails in the source. -/
def monthRollDate (now : NowDT) (day : Nat) : Except Unit Date := do
  let dt ← pyDate now.date.year now.date.month day
  let lt ← pyLtNaiveAware dt now
  if lt then
    if now.date.month = 12 then pyDate (now.date.year + 1) 1 day
    else pyDate now.date.year (now.date.month + 1) day
  else pure dt

/-- The `(date, time, end_time)` exact-match dedup used before every
append of a regex candidate (lines 286, 312, 338, 371, 406, 421, 472). -/
def tripleExists (acc : List Entry) (ds ts es : Option String) : Bool :=
  acc.any fun d0 => d0.date == ds && d0.time == ts && d0.end_time == es

/-- Append one regex candidate unless its `(date, time, end_time)` triple
already exists; a synthetic title is attached only for `add_event`. -/
def appendCandidate (tt : Option String) (date_str start_time end_time : String)
    (acc : List Entry) : List Entry :=
  if tripleExists acc (some date_str) (some start_time) (some end_time) then acc
  else
    acc ++ [{ date := some date_str, time := some start_time,
              end_time := some end_time, end_date := none,
              title :=
                if tt = some "add_event" then
                  some ("予定（" ++ date_str ++ " " ++ start_time ++ "〜" ++ end_time ++ "）")
                else none,
              description := none }]

/-- `f"{int(sh):02d}:{sm if sm else '00'}"`: the minute group is inserted
verbatim when non-empty. -/
def fmtHMStr (h : Nat) (m : String) : String :=
  pad2 h ++ ":" ++ (if m = "" then "00" else m)

/-- One `re.findall` tuple of pattern 1
`(\d{1,2})/(\d{1,2})[\s　]*([0-9]{1,2}):?([0-9]{0,2})[-〜~]([0-9]{1,2}):?([0-9]{0,2})`:
month, day, start hour, start minutes (possibly empty), end hour, end
minutes. -/
abbrev M1 := Nat × Nat × Nat × String × Nat × String

/-- One tuple of patterns 2 and 3 (`・MM/DD H-H時` and `MM/DD H時-H時`):
month, day, start hour, end hour. -/
abbrev M23 := Nat × Nat × Nat × Nat

/-- One tuple of pattern 4 (`DD日 HH[:MM]-HH[:MM]`). -/
abbrev M4 := Nat × Nat × String × Nat × String

/-- One tuple of pattern 5 (`DD日` with two slash-separated ranges). -/
abbrev M5 := Nat × Nat × String × Nat × String × Nat × String × Nat × String

/-- One line of the line-by-line scan (lines 435-482): the `DD日` day
number and all time ranges found on that line. -/
abbrev MLine := Nat × List (Nat × String × Nat × String)

/-- Pattern-1 body, lines 274-296. -/
def pattern1_step (tt : Option String) (now : NowDT) (acc : List Entry) (m : M1) :
    List Entry :=
  match m with
  | (mon, day, sh, sm, eh, em) =>
    match yearRollDate now mon day with
    | .ok dt2 => appendCandidate tt (fmtDate dt2) (fmtHMStr sh sm) (fmtHMStr eh em) acc
    | .error _ => acc

/-- Pattern-2 and pattern-3 bodies, lines 300-322 and 326-348 (identical
processing of `(month, day, start hour, end hour)`). -/
def patternHour_step (tt : Option String) (now : NowDT) (acc : List Entry) (m : M23) :
    List Entry :=
  match m with
  | (mon, day, sh, eh) =>
    match yearRollDate now mon day with
    | .ok dt2 => appendCandidate tt (fmtDate dt2) (pad2 sh ++ ":00") (pad2 eh ++ ":00") acc
    | .error _ => acc

/-- Pattern-4 body, lines 354-381. -/
def pattern4_step (tt : Option String) (now : NowDT) (acc : List Entry) (m : M4) :
    List Entry :=
  match m with
  | (day, sh, sm, eh, em) =>
    match monthRollDate now day with
    | .ok dt2 => appendCandidate tt (fmtDate dt2) (fmtHMStr sh sm) (fmtHMStr eh em) acc
    | .error _ => acc

/-- Pattern-5 body, lines 387-431: one date, two ranges appended in
order. -/
def pattern5_step (tt : Option String) (now : NowDT) (acc : List Entry) (m : M5) :
    List Entry :=
  match m with
  | (day, sh1, sm1, eh1, em1, sh2, sm2, eh2, em2) =>
    match monthRollDate now day with
    | .ok dt2 =>
      let acc1 := appendCandidate tt (fmtDate dt2) (fmtHMStr sh1 sm1) (fmtHMStr eh1 em1) acc
      appendCandidate tt (fmtDate dt2) (fmtHMStr sh2 sm2) (fmtHMStr eh2 em2) acc1
    | .error _ => acc

/-- Line-scan body, lines 436-482: one date per line, all ranges of the
line appended in order. -/
def lines_step (tt : Option String) (now : NowDT) (acc : List Entry) (m : MLine) :
    List Entry :=
  match monthRollDate now m.1 with
  | .ok dt2 =>
    m.2.foldl (fun a tr =>
      match tr with
      | (sh, sm, eh, em) =>
        appendCandidate tt (fmtDate dt2) (fmtHMStr sh sm) (fmtHMStr eh em) a) acc
  | .error _ => acc

/-- Range-cue repair (lines 158-161): `H-H時` sets both times. -/
def stepRange (phrase : List Char) (e : Entry) : Entry :=
  match scanRange phrase with
  | some hh =>
    { e with time := some (pad2 hh.1 ++ ":00"), end_time := some (pad2 hh.2 ++ ":00") }
  | none => e

/-- `H時以降` repair (lines 163-167), only when a time is still missing. -/
def stepIkou (phrase : List Char) (e : Entry) : Entry :=
  if e.time = none ∨ e.end_time = none then
    match scanIkou phrase with
    | some h => { e with time := some (pad2 h ++ ":00"), end_time := some "23:59" }
    | none => e
  else e

/-- `明日` repair (lines 177-182). -/
def stepAshita (now : NowDT) (phrase : List Char) (e : Entry) : Entry :=
  if strHas "明日".toList phrase then
    let e1 := { e with date := some (fmtDate (addDays now.date 1)) }
    let e2 := if e1.time = none then { e1 with time := some "08:00" } else e1
    if e2.end_time = none then { e2 with end_time := some "23:59" } else e2
  else e

/-- `今日`/`本日` repair (lines 184-199 and 202-219): set the date to
today; on `word H時` force the pair `H:00`..`H+1:00`; otherwise default
the start to the current time of day; finally, whenever a start is set,
force the end to start plus one hour (parsing the start with
`strptime('%H:%M')`, which raises on a malformed value). -/
def stepWordDay (word : List Char) (now : NowDT) (phrase : List Char) (e : Entry) :
    Except Unit Entry :=
  if strHas word phrase then
    let e1 := { e with date := some (fmtDate now.date) }
    let e2 :=
      match scanWordJi word phrase with
      | some h =>
        { e1 with time := some (pad2 h ++ ":00"), end_time := some (pad2 (h + 1) ++ ":00") }
      | none =>
        if e1.time = none then { e1 with time := some (fmtHM now.hour now.minute) } else e1
    match e2.time with
    | some ts => do
      let t ← hmParse ts
      pure { e2 with end_time := some (fmtMinutes ((t + 60) % 1440)) }
    | none => pure e2
  else pure e

/-- `今日から1週間` repair (lines 248-252). -/
def stepIsshukan (now : NowDT) (phrase : List Char) (e : Entry) : Entry :=
  if strHas "今日から1週間".toList phrase then
    { e with date := some (fmtDate now.date),
             end_date := some (fmtDate (addDays now.date 6)),
             time := some "00:00", end_time := some "23:59" }
  else e

/-- Final end-time fill (lines 254-259): a set start with no end gets
end = start plus one hour. -/
def stepEndFill (e : Entry) : Except Unit Entry :=
  match e.time, e.end_time with
  | some ts, none => do
    let t ← hmParse ts
    pure { e with end_time := some (fmtMinutes ((t + 60) % 1440)) }
  | _, _ => pure e

/-- Title fallback (lines 261-267). -/
def stepTitle (tt : Option String) (e : Entry) : Entry :=
  match e.title with
  | some _ => e
  | none =>
    match e.description with
    | some s => { e with title := some s }
    | none =>
      if tt = some "add_event" then
        { e with title := some ("予定（" ++ e.date.getD "" ++ " " ++ e.time.getD ""
            ++ "〜" ++ e.end_time.getD "" ++ "）") }
      else e

/-- `days_until_next_monday` (lines 223-225). -/
def daysUntilNextMonday (now : NowDT) : Nat :=
  let d := (7 - pyWeekday now.date) % 7
  if d = 0 then 7 else d

/-- The seven dates of the following week (lines 226-232). -/
def raishuWeekDates (now : NowDT) : List String :=
  (List.range 7).map fun i =>
    fmtDate (addDays (addDays now.date (daysUntilNextMonday now)) i)

/-- The fold of the `来週` expansion: append a 08:00-23:59 entry for each
date not already present, walking the date list left to right. -/
def weekEntry (wd : String) : Entry :=
  { date := some wd, time := some "08:00", end_time := some "23:59",
    end_date := none, title := none, description := none }

def raishuFold : List String → List Entry → List Entry
  | [], nds => nds
  | wd :: wds, nds =>
    raishuFold wds
      (if nds.any (fun ex => ex.date = some wd) then nds else nds ++ [weekEntry wd])

/-- `来週` expansion (lines 221-246): append a 08:00-23:59 entry for each
day of the following week whose date is not already present. -/
def raishuAppend (now : NowDT) (nds : List Entry) : List Entry :=
  raishuFold (raishuWeekDates now) nds

/-- State of the per-entry repair loop: the `allday_dates` set (line 146)
and the `new_dates` accumulator (line 147). -/
structure LoopState where
  allday_dates : List (Option String)
  new_dates : List Entry
deriving DecidableEq, Repr

/-- Tail of the repair of one incomplete entry, after the 終日 branch:
`明日`, `今日`, `本日`, `来週` (which discards the entry and expands the
following week), `今日から1週間`, end fill and title fallback, then the
append (lines 177-268). -/
def repairTail (tt : Option String) (now : NowDT) (phrase : List Char)
    (st : LoopState) (e : Entry) : Except Unit LoopState := do
  let e5 ← stepWordDay "今日".toList now phrase (stepAshita now phrase e)
  let e6 ← stepWordDay "本日".toList now phrase e5
  if strHas "来週".toList phrase then
    pure ⟨st.allday_dates, raishuAppend now st.new_dates⟩
  else do
    let e8 ← stepEndFill (stepIsshukan now phrase e6)
    pure ⟨st.allday_dates, st.new_dates ++ [stepTitle tt e8]⟩

/-- The 終日 overwrite of lines 170-171. -/
def alldayEntry (e : Entry) : Entry :=
  { e with time := some "00:00", end_time := some "23:59" }

/-- Repair after the range and 以降 steps (`e2` is the entry they
produced): the 終日 branch (lines 169-175) fires when both times are
still missing or the phrase contains 終日, setting 00:00-23:59 and
dropping the entry when an all-day entry for its date was already seen;
then the remaining cues run. -/
def repairCore (tt : Option String) (now : NowDT) (phrase : List Char) (st : LoopState)
    (e2 : Entry) : Except Unit LoopState :=
  if (e2.time = none ∧ e2.end_time = none) ∨ strHas "終日".toList phrase then
    if st.allday_dates.contains (alldayEntry e2).date then .ok st
    else repairTail tt now phrase
      ⟨(alldayEntry e2).date :: st.allday_dates, st.new_dates⟩ (alldayEntry e2)
  else repairTail tt now phrase st e2

/-- Repair of one entry of the upstream guess list (loop body, lines
149-268): entries with both times set pass through untouched; otherwise
the range and 以降 repairs run, then `repairCore` finishes the entry. -/
def repairOne (tt : Option String) (now : NowDT) (raw : String) (st : LoopState)
    (d : Entry) : Except Unit LoopState :=
  if d.time ≠ none ∧ d.end_time ≠ none then
    .ok ⟨st.allday_dates, st.new_dates ++ [d]⟩
  else
    repairCore tt now (entryPhrase d raw).toList st
      (stepIkou (entryPhrase d raw).toList (stepRange (entryPhrase d raw).toList d))

/-- The repair loop over the guess's entry list. -/
def runLoop (tt : Option String) (now : NowDT) (raw : String) :
    LoopState → List Entry → Except Unit LoopState
  | st, [] => .ok st
  | st, d :: ds =>
    match repairOne tt now raw st d with
    | .ok st' => runLoop tt now raw st' ds
    | .error e => .error e

/-- `part in ['移動', '移動あり', '移動時間', '移動必要']`. -/
def isTravelWord (p : String) : Bool :=
  p == "移動" || p == "移動あり" || p == "移動時間" || p == "移動必要"

/-- `any(keyword in original_text for keyword in travel_keywords)`
(lines 542-543 and 585-586). -/
def travel_keywords_present (raw : String) : Bool :=
  strHas "移動".toList raw.toList || strHas "移動あり".toList raw.toList
    || strHas "移動時間".toList raw.toList || strHas "移動必要".toList raw.toList

def pyIsSpace (c : Char) : Bool := c.isWhitespace || c == '　'

/-- Python `str.split()`: split on whitespace runs, dropping empties. -/
def pySplitAux (cur : List Char) : List Char → List (List Char)
  | [] => if cur = [] then [] else [cur.reverse]
  | c :: r =>
    if pyIsSpace c then
      if cur = [] then pySplitAux [] r else cur.reverse :: pySplitAux [] r
    else pySplitAux (c :: cur) r

def pySplit (s : String) : List String :=
  (pySplitAux [] s.toList).map fun l => String.mk l

/-- `re.match(r'^\d{1,2}時$', part)` as a full-string test. -/
def isHourWord (s : String) : Bool :=
  match s.toList with
  | [a, j] => a.isDigit && j == '時'
  | [a, b, j] => a.isDigit && b.isDigit && j == '時'
  | _ => false

/-- Title extraction of the today-block (lines 497-509): words of the
text, stopping at a travel keyword, skipping bare-hour words and the
今日/本日 markers. -/
def titleLoopAux (accT : String) : List String → String
  | [] => accT
  | p :: ps =>
    if isTravelWord p then accT
    else if !isHourWord p && p ≠ "本日" && p ≠ "今日" then
      titleLoopAux (if accT = "" then p else accT ++ " " ++ p) ps
    else titleLoopAux accT ps

/-- The 本日/今日 fallback block (lines 485-523): only when the regex
phases produced nothing and the text names today with an hour, one
synthetic entry `H:00`..`H+1:00` for today is appended, with an extracted
title (default 予定). -/
def special_kyou_block (now : NowDT) (raw : String) (nds : List Entry) : List Entry :=
  if (strHas "本日".toList raw.toList || strHas "今日".toList raw.toList) && nds.isEmpty then
    match scanHonKyouJi raw.toList with
    | some hour =>
      let title := titleLoopAux "" (pySplit raw)
      nds ++ [{ date := some (fmtDate now.date), time := some (pad2 hour ++ ":00"),
                end_time := some (pad2 (hour + 1) ++ ":00"), end_date := none,
                title := some (if title = "" then "予定" else title),
                description := none }]
    | none => nds
  else nds

/-- `d[key]` with a `KeyError` on a missing key; an empty value would make
the subsequent `strptime` raise instead, so both map to failure. -/
def getKey (o : Option String) : Except Unit String :=
  match o with
  | some s => .ok s
  | none => .error ()

/-- `strptime(f"{date_str} {time}", "%Y-%m-%d %H:%M")` split into its two
independent halves. -/
def parseEntryDT (dateS timeS : String) : Except Unit (Date × Nat) :=
  match tryDate dateS.toList, tryHM timeS.toList with
  | some d, some t => .ok (d, t)
  | _, _ => .error ()

/-- `_create_travel_events` (lines 590-631): a one-hour outbound buffer
ending at the start and a one-hour return buffer starting at the end. -/
def create_travel_events (e : Entry) : Except Unit (List Entry) := do
  let date_str ← getKey e.date
  let start_time ← getKey e.time
  let end_time ← getKey e.end_time
  let sdt ← parseEntryDT date_str start_time
  let edt ← parseEntryDT date_str end_time
  pure [{ date := some date_str, time := some (fmtMinutes ((sdt.2 + 1380) % 1440)),
          end_time := some (fmtMinutes (sdt.2 % 1440)), end_date := none,
          title := some "移動時間（往路）", description := some "移動のための時間" },
        { date := some date_str, time := some (fmtMinutes (edt.2 % 1440)),
          end_time := some (fmtMinutes ((edt.2 + 60) % 1440)), end_date := none,
          title := some "移動時間（復路）", description := some "移動のための時間" }]

/-- `_should_add_travel_time` (lines 582-588). -/
def should_add_travel_time (raw : String) : Bool := travel_keywords_present raw

/-- Inner loop of `_add_travel_time` (lines 557-578). -/
def travelLoop (raw : String) : List Entry → List Entry → Except Unit (List Entry)
  | acc, [] => .ok acc
  | acc, d :: ds => do
    let acc1 := acc ++ [d]
    let acc2 ←
      if should_add_travel_time raw then do
        let tevs ← create_travel_events d
        pure (tevs.foldl (fun a te =>
          if tripleExists a te.date te.time te.end_time then a else a ++ [te]) acc1)
      else pure acc1
    travelLoop raw acc2 ds

/-- `_add_travel_time` (lines 536-580). -/
def add_travel_time (raw : String) (dates : List Entry) : Except Unit (List Entry) :=
  if travel_keywords_present raw then travelLoop raw [] dates else .ok dates

/-- The whole `_supplement_times` body after the guard (lines 146-534).
The six `re.findall`/line-scan result lists over the raw text are taken
as explicit parameters, so every theorem below quantifies over all
possible match lists. -/
def supplement_core (tt : Option String) (now : NowDT) (raw : String) (ds : List Entry)
    (ms1 : List M1) (ms2 ms3 : List M23) (ms4 : List M4) (ms5 : List M5)
    (msLines : List MLine) : Except Unit (List Entry) := do
  let st ← runLoop tt now raw ⟨[], []⟩ ds
  let n1 := ms1.foldl (pattern1_step tt now) st.new_dates
  let n2 := ms2.foldl (patternHour_step tt now) n1
  let n3 := ms3.foldl (patternHour_step tt now) n2
  let n4 := ms4.foldl (pattern4_step tt now) n3
  let n5 := ms5.foldl (pattern5_step tt now) n4
  let n6 := msLines.foldl (lines_step tt now) n5
  let n7 := special_kyou_block now raw n6
  if tt = some "add_event" then add_travel_time raw n7 else pure n7

/-- The upstream guess object: `task_type` and the `dates` list; `none`
for `dates` models a top-level object without a usable `dates` key. -/
structure Parsed where
  task_type : Option String
  dates : Option (List Entry)
deriving DecidableEq, Repr

/-- `_supplement_times(parsed, original_text)` (lines 135-534): `none`
for `parsed` models a falsy or absent guess; the guard at lines 143-145
returns it unchanged when there is no `dates` key. -/
def supplement_times (parsed : Option Parsed) (now : NowDT) (raw : String)
    (ms1 : List M1) (ms2 ms3 : List M23) (ms4 : List M4) (ms5 : List M5)
    (msLines : List MLine) : Except Unit (Option Parsed) :=
  match parsed with
  | none => .ok none
  | some p =>
    match p.dates with
    | none => .ok (some p)
    | some ds => do
      let nd ← supplement_core p.task_type now raw ds ms1 ms2 ms3 ms4 ms5 msLines
      pure (some { p with dates := some nd })

/-- The year-rollover computation always raises: its `dt < now`
comparison is naive-vs-aware. -/
theorem yearRollDate_error (now : NowDT) (mon day : Nat) :
    yearRollDate now mon day = .error () := by
  unfold yearRollDate pyDate
  split <;> rfl

/-- The month-rollover computation always raises, for the same reason. -/
theorem monthRollDate_error (now : NowDT) (day : Nat) :
    monthRollDate now day = .error () := by
  unfold monthRollDate pyDate
  split <;> rfl

theorem pattern1_step_id (tt : Option String) (now : NowDT) (m : M1) (acc : List Entry) :
    pattern1_step tt now acc m = acc := by
  obtain ⟨mon, day, sh, sm, eh, em⟩ := m
  show (match yearRollDate now mon day with
    | .ok dt2 => appendCandidate tt (fmtDate dt2) (fmtHMStr sh sm) (fmtHMStr eh em) acc
    | .error _ => acc) = acc
  rw [yearRollDate_error]

theorem patternHour_step_id (tt : Option String) (now : NowDT) (m : M23) (acc : List Entry) :
    patternHour_step tt now acc m = acc := by
  obtain ⟨mon, day, sh, eh⟩ := m
  show (match yearRollDate now mon day with
    | .ok dt2 => appendCandidate tt (fmtDate dt2) (pad2 sh ++ ":00") (pad2 eh ++ ":00") acc
    | .error _ => acc) = acc
  rw [yearRollDate_error]

theorem pattern4_step_id (tt : Option String) (now : NowDT) (m : M4) (acc : List Entry) :
    pattern4_step tt now acc m = acc := by
  obtain ⟨day, sh, sm, eh, em⟩ := m
  show (match monthRollDate now day with
    | .ok dt2 => appendCandidate tt (fmtDate dt2) (fmtHMStr sh sm) (fmtHMStr eh em) acc
    | .error _ => acc) = acc
  rw [monthRollDate_error]

theorem pattern5_step_id (tt : Option String) (now : NowDT) (m : M5) (acc : List Entry) :
    pattern5_step tt now acc m = acc := by
  obtain ⟨day, sh1, sm1, eh1, em1, sh2, sm2, eh2, em2⟩ := m
  show (match monthRollDate now day with
    | .ok dt2 =>
      appendCandidate tt (fmtDate dt2) (fmtHMStr sh2 sm2) (fmtHMStr eh2 em2)
        (appendCandidate tt (fmtDate dt2) (fmtHMStr sh1 sm1) (fmtHMStr eh1 em1) acc)
    | .error _ => acc) = acc
  rw [monthRollDate_error]

theorem lines_step_id (tt : Option String) (now : NowDT) (m : MLine) (acc : List Entry) :
    lines_step tt now acc m = acc := by
  obtain ⟨day, trs⟩ := m
  show (match monthRollDate now day with
    | .ok dt2 =>
      trs.foldl (fun a tr =>
        match tr with
        | (sh, sm, eh, em) =>
          appendCandidate tt (fmtDate dt2) (fmtHMStr sh sm) (fmtHMStr eh em) a) acc
    | .error _ => acc) = acc
  rw [monthRollDate_error]

/-- A fold whose step never changes the accumulator is the identity. -/
theorem foldl_id {α β : Type} (f : α → β → α) (h : ∀ a m, f a m = a) :
    ∀ (ms : List β) (acc : α), ms.foldl f acc = acc := by
  intro ms
  induction ms with
  | nil => intro acc; rfl
  | cons m ms ih =>
    intro acc
    rw [List.foldl_cons, h acc m]
    exact ih acc

theorem except_bind_ok {α β γ : Type} (a : α) (f : α → Except γ β) :
    (Except.ok a >>= f) = f a := rfl

theorem except_bind_error {α β γ : Type} (e : γ) (f : α → Except γ β) :
    ((Except.error e : Except γ α) >>= f) = .error e := rfl

theorem foldl_pattern1 (tt : Option String) (now : NowDT) (ms : List M1) (acc : List Entry) :
    ms.foldl (pattern1_step tt now) acc = acc :=
  foldl_id _ (fun a m => pattern1_step_id tt now m a) ms acc

theorem foldl_patternHour (tt : Option String) (now : NowDT) (ms : List M23) (acc : List Entry) :
    ms.foldl (patternHour_step tt now) acc = acc :=
  foldl_id _ (fun a m => patternHour_step_id tt now m a) ms acc

theorem foldl_pattern4 (tt : Option String) (now : NowDT) (ms : List M4) (acc : List Entry) :
    ms.foldl (pattern4_step tt now) acc = acc :=
  foldl_id _ (fun a m => pattern4_step_id tt now m a) ms acc

theorem foldl_pattern5 (tt : Option String) (now : NowDT) (ms : List M5) (acc : List Entry) :
    ms.foldl (pattern5_step tt now) acc = acc :=
  foldl_id _ (fun a m => pattern5_step_id tt now m a) ms acc

theorem foldl_lines (tt : Option String) (now : NowDT) (ms : List MLine) (acc : List Entry) :
    ms.foldl (lines_step tt now) acc = acc :=
  foldl_id _ (fun a m => lines_step_id tt now m a) ms acc

/-- Decomposition of a successful `supplement_core` run: the repair loop
succeeded, the six regex phases left its output unchanged (claim C4),
and the result is the today-block output, with travel processing in the
`add_event` case only. -/
theorem supplement_core_decomp (tt : Option String) (now : NowDT) (raw : String)
    (ds : List Entry) (ms1 : List M1) (ms2 ms3 : List M23) (ms4 : List M4) (ms5 : List M5)
    (msLines : List MLine) (out : List Entry)
    (h : supplement_core tt now raw ds ms1 ms2 ms3 ms4 ms5 msLines = .ok out) :
    ∃ st, runLoop tt now raw ⟨[], []⟩ ds = .ok st
      ∧ ((tt = some "add_event"
          ∧ add_travel_time raw (special_kyou_block now raw st.new_dates) = .ok out)
        ∨ (tt ≠ some "add_event"
          ∧ special_kyou_block now raw st.new_dates = out)) := by
  unfold supplement_core at h
  cases hr : runLoop tt now raw ⟨[], []⟩ ds with
  | error e =>
    rw [hr, except_bind_error] at h
    exact absurd h (by simp)
  | ok st =>
    rw [hr, except_bind_ok] at h
    simp only [foldl_pattern1, foldl_patternHour, foldl_pattern4, foldl_pattern5,
      foldl_lines] at h
    refine ⟨st, rfl, ?_⟩
    by_cases htt : tt = some "add_event"
    · rw [if_pos htt] at h
      exact Or.inl ⟨htt, h⟩
    · rw [if_neg htt] at h
      exact Or.inr ⟨htt, Except.ok.inj h⟩

/-- Claim C4 (code bug): each regex-phase candidate is processed inside
`try: dt = datetime(year, month, day); if dt < now: ...` where `dt` is
naive and `now` is timezone-aware, so the comparison raises `TypeError`,
the `except Exception: continue` swallows it, and the candidate is
skipped — for every pattern, every match tuple and every current moment.
No pattern candidate is ever emitted, so the year and month inference
rules never take effect; in particular the raw text `7/10 9:00-10:00`
(pattern-1 match `(7,10,9,"00",10,"00")`) on 2025-07-01 with an empty
guess list yields no entry at all, where the spec requires the entry
(2025-07-10, 09:00, 10:00). -/
theorem c4_patterns_never_emit (tt : Option String) (now : NowDT) :
    (∀ (m : M1) (acc : List Entry), pattern1_step tt now acc m = acc)
    ∧ (∀ (m : M23) (acc : List Entry), patternHour_step tt now acc m = acc)
    ∧ (∀ (m : M4) (acc : List Entry), pattern4_step tt now acc m = acc)
    ∧ (∀ (m : M5) (acc : List Entry), pattern5_step tt now acc m = acc)
    ∧ (∀ (m : MLine) (acc : List Entry), lines_step tt now acc m = acc)
    ∧ supplement_core none ⟨⟨2025, 7, 1⟩, 12, 0⟩ "7/10 9:00-10:00" []
        [(7, 10, 9, "00", 10, "00")] [] [] [] [] [] = .ok [] :=
  ⟨fun m acc => pattern1_step_id tt now m acc,
   fun m acc => patternHour_step_id tt now m acc,
   fun m acc => pattern4_step_id tt now m acc,
   fun m acc => pattern5_step_id tt now m acc,
   fun m acc => lines_step_id tt now m acc,
   rfl⟩

/-- Entries that already carry both times pass through the repair loop
untouched, in order. -/
theorem runLoop_complete (tt : Option String) (now : NowDT) (raw : String) :
    ∀ (ds : List Entry) (st : LoopState), (∀ e ∈ ds, e.time ≠ none ∧ e.end_time ≠ none) →
      runLoop tt now raw st ds = .ok ⟨st.allday_dates, st.new_dates ++ ds⟩ := by
  intro ds
  induction ds with
  | nil =>
    intro st _
    simp [runLoop]
  | cons d ds ih =>
    intro st hc
    have hd := hc d (List.mem_cons_self _ _)
    have h1 : repairOne tt now raw st d = .ok ⟨st.allday_dates, st.new_dates ++ [d]⟩ := by
      unfold repairOne
      rw [if_pos hd]
    show (match repairOne tt now raw st d with
      | .ok st' => runLoop tt now raw st' ds
      | .error e => .error e) = _
    rw [h1]
    show runLoop tt now raw ⟨st.allday_dates, st.new_dates ++ [d]⟩ ds
      = Except.ok ⟨st.allday_dates, st.new_dates ++ d :: ds⟩
    rw [ih ⟨st.allday_dates, st.new_dates ++ [d]⟩
      (fun e he => hc e (List.mem_cons_of_mem _ he))]
    simp

/-- The today-block only ever appends. -/
theorem special_kyou_sublist (now : NowDT) (raw : String) (nds : List Entry) :
    nds.Sublist (special_kyou_block now raw nds) := by
  unfold special_kyou_block
  split
  · split
    · exact List.sublist_append_left _ _
    · exact List.Sublist.refl _
  · exact List.Sublist.refl _

/-- A fold whose step only appends onto the accumulator yields the
accumulator followed by some extension. -/
theorem appendOnlyFold {β : Type} (f : List Entry → β → List Entry)
    (h : ∀ a m, ∃ ex, f a m = a ++ ex) :
    ∀ (ms : List β) (acc : List Entry), ∃ ex, ms.foldl f acc = acc ++ ex := by
  intro ms
  induction ms with
  | nil => intro acc; exact ⟨[], by simp⟩
  | cons m ms ih =>
    intro acc
    rcases h acc m with ⟨e0, he0⟩
    rcases ih (acc ++ e0) with ⟨ex, hex⟩
    exact ⟨e0 ++ ex, by rw [List.foldl_cons, he0, hex, List.append_assoc]⟩

/-- The dedup-append of travel buffers only appends. -/
theorem travel_fold_append (tevs : List Entry) (acc : List Entry) :
    ∃ ex, tevs.foldl (fun a te =>
      if tripleExists a te.date te.time te.end_time then a else a ++ [te]) acc
      = acc ++ ex :=
  appendOnlyFold _ (fun a te => by
    by_cases hdup : tripleExists a te.date te.time te.end_time = true
    · exact ⟨[], by rw [if_pos hdup]; simp⟩
    · exact ⟨[te], by rw [if_neg hdup]⟩) tevs acc

/-- The travel loop keeps its input as a sublist: each entry is appended,
followed only by extra buffer entries. -/
theorem travelLoop_sublist (raw : String) :
    ∀ (l acc : List Entry) (out : List Entry),
      travelLoop raw acc l = .ok out → (acc ++ l).Sublist out := by
  intro l
  induction l with
  | nil =>
    intro acc out h
    have h' : acc = out := Except.ok.inj h
    simp [h']
  | cons d ds ih =>
    intro acc out h
    unfold travelLoop at h
    have heq : acc ++ d :: ds = (acc ++ [d]) ++ ds := by simp
    by_cases hk : should_add_travel_time raw = true
    · simp only [hk, if_true, pure_bind] at h
      cases hte : create_travel_events d with
      | error e =>
        rw [hte, except_bind_error] at h
        exact absurd h (by simp)
      | ok tevs =>
        rw [hte, except_bind_ok] at h
        rcases travel_fold_append tevs (acc ++ [d]) with ⟨ex, hex⟩
        rw [hex] at h
        have hih := ih ((acc ++ [d]) ++ ex) out h
        rw [heq]
        exact List.Sublist.trans
          (List.Sublist.append (List.sublist_append_left _ _) (List.Sublist.refl ds)) hih
    · simp only [if_neg hk, pure_bind] at h
      have hih := ih (acc ++ [d]) out h
      rw [heq]
      exact hih

/-- Claim C6: idempotence on repaired entries — for an entry list in
which every entry already has both times set (the shape of the
normalizer's own output), a renewed run passes every entry through
unchanged: whenever the run completes, the input list is a sublist of
the output (later phases only append new entries, never modify these). -/
theorem c6_idempotent (tt : Option String) (now : NowDT) (raw : String) (ds : List Entry)
    (ms1 : List M1) (ms2 ms3 : List M23) (ms4 : List M4) (ms5 : List M5) (msLines : List MLine)
    (hc : ∀ e ∈ ds, e.time ≠ none ∧ e.end_time ≠ none) :
    ∀ out, supplement_core tt now raw ds ms1 ms2 ms3 ms4 ms5 msLines = .ok out →
      ds.Sublist out := by
  intro out h
  rcases supplement_core_decomp tt now raw ds ms1 ms2 ms3 ms4 ms5 msLines out h
    with ⟨st, hrl, hrest⟩
  have hst : st = ⟨[], ds⟩ := by
    have h2 := runLoop_complete tt now raw ds ⟨[], []⟩ hc
    rw [h2] at hrl
    have h3 := Except.ok.inj hrl
    simp at h3
    exact h3.symm
  subst hst
  have hsub1 : ds.Sublist (special_kyou_block now raw ds) := special_kyou_sublist now raw ds
  rcases hrest with ⟨_, htr⟩ | ⟨_, hout⟩
  · unfold add_travel_time at htr
    by_cases hkw : travel_keywords_present raw = true
    · rw [if_pos hkw] at htr
      have h4 := travelLoop_sublist raw (special_kyou_block now raw ds) [] out htr
      simp at h4
      exact hsub1.trans h4
    · rw [if_neg hkw] at htr
      rw [← Except.ok.inj htr]
      exact hsub1
  · rw [← hout]
    exact hsub1

theorem c6_idempotent_witness :
    ([⟨some "2025-07-10", some "10:00", some "11:00", none, some "T", none⟩] : List Entry).Sublist
      [⟨some "2025-07-10", some "10:00", some "11:00", none, some "T", none⟩,
       ⟨some "2025-07-10", some "09:00", some "10:00", none, some "移動時間（往路）",
        some "移動のための時間"⟩,
       ⟨some "2025-07-10", some "11:00", some "12:00", none, some "移動時間（復路）",
        some "移動のための時間"⟩] :=
  c6_idempotent (some "add_event") ⟨⟨2025, 7, 9⟩, 12, 0⟩ "移動あり"
    [⟨some "2025-07-10", some "10:00", some "11:00", none, some "T", none⟩]
    [] [] [] [] [] [] (by decide) _ rfl

/-- The range step never erases a time field. -/
theorem stepRange_pres (phrase : List Char) (e : Entry) :
    ((stepRange phrase e).time = none → e.time = none)
    ∧ ((stepRange phrase e).end_time = none → e.end_time = none) := by
  unfold stepRange
  cases scanRange phrase <;> simp

/-- The 以降 step never erases a time field. -/
theorem stepIkou_pres (phrase : List Char) (e : Entry) :
    ((stepIkou phrase e).time = none → e.time = none)
    ∧ ((stepIkou phrase e).end_time = none → e.end_time = none) := by
  unfold stepIkou
  split
  · cases scanIkou phrase <;> simp
  · simp

/-- The 明日 step never erases a time field. -/
theorem stepAshita_pres (now : NowDT) (phrase : List Char) (e : Entry) :
    ((stepAshita now phrase e).time = none → e.time = none)
    ∧ ((stepAshita now phrase e).end_time = none → e.end_time = none) := by
  obtain ⟨d0, t0, et0, ed0, ti0, de0⟩ := e
  unfold stepAshita
  by_cases hw : strHas "明日".toList phrase = true
  · rw [if_pos hw]
    cases t0 <;> cases et0 <;> simp
  · rw [if_neg hw]
    simp

/-- A successful 今日/本日 step either leaves the entry unchanged or
leaves it with both times set. -/
theorem stepWordDay_cases (word : List Char) (now : NowDT) (phrase : List Char)
    (e e' : Entry) (h : stepWordDay word now phrase e = .ok e') :
    e' = e ∨ (e'.time ≠ none ∧ e'.end_time ≠ none) := by
  obtain ⟨d0, t0, et0, ed0, ti0, de0⟩ := e
  unfold stepWordDay at h
  by_cases hw : strHas word phrase = true
  · rw [if_pos hw] at h
    cases hji : scanWordJi word phrase with
    | some hr =>
      rw [hji] at h
      have h2 : (hmParse (pad2 hr ++ ":00") >>= fun t =>
          (pure { date := some (fmtDate now.date), time := some (pad2 hr ++ ":00"),
                  end_time := some (fmtMinutes ((t + 60) % 1440)), end_date := ed0,
                  title := ti0, description := de0 } : Except Unit Entry)) = .ok e' := h
      cases hp : hmParse (pad2 hr ++ ":00") with
      | error u =>
        rw [hp, except_bind_error] at h2
        exact absurd h2 (by simp)
      | ok t =>
        rw [hp, except_bind_ok] at h2
        have he' := Except.ok.inj h2
        rw [← he']
        exact Or.inr ⟨by simp, by simp⟩
    | none =>
      rw [hji] at h
      cases t0 with
      | none =>
        have h2 : (hmParse (fmtHM now.hour now.minute) >>= fun t =>
            (pure { date := some (fmtDate now.date), time := some (fmtHM now.hour now.minute),
                    end_time := some (fmtMinutes ((t + 60) % 1440)), end_date := ed0,
                    title := ti0, description := de0 } : Except Unit Entry)) = .ok e' := h
        cases hp : hmParse (fmtHM now.hour now.minute) with
        | error u =>
          rw [hp, except_bind_error] at h2
          exact absurd h2 (by simp)
        | ok t =>
          rw [hp, except_bind_ok] at h2
          have he' := Except.ok.inj h2
          rw [← he']
          exact Or.inr ⟨by simp, by simp⟩
      | some ts =>
        have h2 : (hmParse ts >>= fun t =>
            (pure { date := some (fmtDate now.date), time := some ts,
                    end_time := some (fmtMinutes ((t + 60) % 1440)), end_date := ed0,
                    title := ti0, description := de0 } : Except Unit Entry)) = .ok e' := h
        cases hp : hmParse ts with
        | error u =>
          rw [hp, except_bind_error] at h2
          exact absurd h2 (by simp)
        | ok t =>
          rw [hp, except_bind_ok] at h2
          have he' := Except.ok.inj h2
          rw [← he']
          exact Or.inr ⟨by simp, by simp⟩
  · rw [if_neg hw] at h
    exact Or.inl (Except.ok.inj h).symm

/-- The 今日から1週間 step never erases a time field. -/
theorem stepIsshukan_pres (now : NowDT) (phrase : List Char) (e : Entry) :
    ((stepIsshukan now phrase e).time = none → e.time = none)
    ∧ ((stepIsshukan now phrase e).end_time = none → e.end_time = none) := by
  unfold stepIsshukan
  split <;> simp

/-- A successful end fill leaves the end time set whenever some time
field was set before. -/
theorem stepEndFill_ok (e e' : Entry) (h : stepEndFill e = .ok e')
    (hinv : e.time ≠ none ∨ e.end_time ≠ none) : e'.end_time ≠ none := by
  obtain ⟨d0, t0, et0, ed0, ti0, de0⟩ := e
  unfold stepEndFill at h
  cases t0 with
  | some ts =>
    cases et0 with
    | some es =>
      have he' := Except.ok.inj h
      rw [← he']
      simp
    | none =>
      have h2 : (hmParse ts >>= fun t =>
          (pure { date := d0, time := some ts,
                  end_time := some (fmtMinutes ((t + 60) % 1440)), end_date := ed0,
                  title := ti0, description := de0 } : Except Unit Entry)) = .ok e' := h
      cases hp : hmParse ts with
      | error u =>
        rw [hp, except_bind_error] at h2
        exact absurd h2 (by simp)
      | ok t =>
        rw [hp, except_bind_ok] at h2
        have he' := Except.ok.inj h2
        rw [← he']
        simp
  | none =>
    cases et0 with
    | some es =>
      have he' := Except.ok.inj h
      rw [← he']
      simp
    | none =>
      rcases hinv with h1 | h1 <;> simp at h1

/-- The title step changes only the title. -/
theorem stepTitle_fields (tt : Option String) (e : Entry) :
    (stepTitle tt e).end_time = e.end_time ∧ (stepTitle tt e).time = e.time
      ∧ (stepTitle tt e).date = e.date := by
  obtain ⟨d0, t0, et0, ed0, ti0, de0⟩ := e
  unfold stepTitle
  cases ti0 <;> cases de0 <;> (try split) <;> (try split) <;> (try split_ifs) <;> simp


/-- Specification of the `来週` fold: it appends entries, each 08:00 to
23:59 on one of the given dates, and afterwards every given date is
represented. -/
theorem raishuFold_spec : ∀ (wds : List String) (nds : List Entry),
    ∃ adds, raishuFold wds nds = nds ++ adds
      ∧ (∀ a ∈ adds, a.time = some "08:00" ∧ a.end_time = some "23:59"
          ∧ ∃ wd ∈ wds, a.date = some wd)
      ∧ (∀ wd ∈ wds, ∃ ex ∈ raishuFold wds nds, ex.date = some wd) := by
  intro wds
  induction wds with
  | nil =>
    intro nds
    exact ⟨[], by simp [raishuFold], by simp, by simp⟩
  | cons wd wds ih =>
    intro nds
    by_cases hany : nds.any (fun ex => ex.date = some wd) = true
    · have hred : raishuFold (wd :: wds) nds = raishuFold wds nds := by
        show raishuFold wds (if nds.any (fun ex => ex.date = some wd) then nds else _) = _
        rw [if_pos hany]
      rcases ih nds with ⟨adds, h1, h2, h3⟩
      refine ⟨adds, by rw [hred]; exact h1, ?_, ?_⟩
      · intro a ha
        rcases h2 a ha with ⟨x1, x2, wd', hwd', hdate⟩
        exact ⟨x1, x2, wd', List.mem_cons_of_mem _ hwd', hdate⟩
      · intro wd' hwd'
        rcases List.mem_cons.mp hwd' with rfl | hw
        · rcases List.any_eq_true.mp hany with ⟨ex, hex, hexd⟩
          refine ⟨ex, ?_, of_decide_eq_true hexd⟩
          rw [hred, h1]
          exact List.mem_append_left _ hex
        · rcases h3 wd' hw with ⟨ex, hex, hd⟩
          exact ⟨ex, by rw [hred]; exact hex, hd⟩
    · have hred : raishuFold (wd :: wds) nds = raishuFold wds (nds ++ [weekEntry wd]) := by
        show raishuFold wds (if nds.any (fun ex => ex.date = some wd) then nds else _) = _
        rw [if_neg hany]
      rcases ih (nds ++ [weekEntry wd]) with ⟨adds, h1, h2, h3⟩
      refine ⟨weekEntry wd :: adds, ?_, ?_, ?_⟩
      · rw [hred, h1]
        simp
      · intro a ha
        rcases List.mem_cons.mp ha with rfl | ha'
        · exact ⟨rfl, rfl, wd, List.mem_cons_self _ _, rfl⟩
        · rcases h2 a ha' with ⟨x1, x2, wd', hwd', hdate⟩
          exact ⟨x1, x2, wd', List.mem_cons_of_mem _ hwd', hdate⟩
      · intro wd' hwd'
        rcases List.mem_cons.mp hwd' with rfl | hwds
        · refine ⟨weekEntry wd', ?_, rfl⟩
          rw [hred, h1]
          exact List.mem_append_left _
            (List.mem_append_right _ (List.mem_singleton_self _))
        · rcases h3 wd' hwds with ⟨ex, hex, hd⟩
          exact ⟨ex, by rw [hred]; exact hex, hd⟩

/-- Every entry appended by `repairTail` has its end time set. -/
theorem repairTail_endtime (tt : Option String) (now : NowDT) (phrase : List Char)
    (st : LoopState) (e : Entry) (st' : LoopState)
    (hinv : e.time ≠ none ∨ e.end_time ≠ none)
    (h : repairTail tt now phrase st e = .ok st') :
    ∀ x ∈ st'.new_dates, x ∈ st.new_dates ∨ x.end_time ≠ none := by
  unfold repairTail at h
  cases h5 : stepWordDay "今日".toList now phrase (stepAshita now phrase e) with
  | error u =>
    rw [h5, except_bind_error] at h
    exact absurd h (by simp)
  | ok e5 =>
    rw [h5, except_bind_ok] at h
    cases h6 : stepWordDay "本日".toList now phrase e5 with
    | error u =>
      rw [h6, except_bind_error] at h
      exact absurd h (by simp)
    | ok e6 =>
      rw [h6, except_bind_ok] at h
      have hinv4 : (stepAshita now phrase e).time ≠ none
          ∨ (stepAshita now phrase e).end_time ≠ none := by
        rcases hinv with h1 | h1
        · exact Or.inl (fun hx => h1 ((stepAshita_pres now phrase e).1 hx))
        · exact Or.inr (fun hx => h1 ((stepAshita_pres now phrase e).2 hx))
      have hinv5 : e5.time ≠ none ∨ e5.end_time ≠ none := by
        rcases stepWordDay_cases _ now phrase _ e5 h5 with heq | hboth
        · rw [heq]; exact hinv4
        · exact Or.inl hboth.1
      have hinv6 : e6.time ≠ none ∨ e6.end_time ≠ none := by
        rcases stepWordDay_cases _ now phrase _ e6 h6 with heq | hboth
        · rw [heq]; exact hinv5
        · exact Or.inl hboth.1
      by_cases hrs : strHas "来週".toList phrase = true
      · rw [if_pos hrs] at h
        have hst' := Except.ok.inj h
        rw [← hst']
        intro x hx
        rcases raishuFold_spec (raishuWeekDates now) st.new_dates with ⟨adds, h1, h2, _⟩
        have hx' : x ∈ st.new_dates ++ adds := by
          have hr : raishuAppend now st.new_dates = st.new_dates ++ adds := h1
          rw [← hr]
          exact hx
        rcases List.mem_append.mp hx' with hx1 | hx2
        · exact Or.inl hx1
        · exact Or.inr (by rw [(h2 x hx2).2.1]; simp)
      · rw [if_neg hrs] at h
        cases h8 : stepEndFill (stepIsshukan now phrase e6) with
        | error u =>
          rw [h8, except_bind_error] at h
          exact absurd h (by simp)
        | ok e8 =>
          rw [h8, except_bind_ok] at h
          have hst' := Except.ok.inj h
          rw [← hst']
          intro x hx
          rcases List.mem_append.mp hx with hx1 | hx2
          · exact Or.inl hx1
          · rcases List.mem_singleton.mp hx2 with rfl
            refine Or.inr ?_
            rw [(stepTitle_fields tt e8).1]
            refine stepEndFill_ok _ _ h8 ?_
            rcases hinv6 with h1 | h1
            · exact Or.inl (fun hx => h1 ((stepIsshukan_pres now phrase e6).1 hx))
            · exact Or.inr (fun hx => h1 ((stepIsshukan_pres now phrase e6).2 hx))

/-- Every entry appended by the repair of one entry has its end time
set. -/
theorem repairOne_endtime (tt : Option String) (now : NowDT) (raw : String)
    (st : LoopState) (d : Entry) (st' : LoopState)
    (h : repairOne tt now raw st d = .ok st') :
    ∀ x ∈ st'.new_dates, x ∈ st.new_dates ∨ x.end_time ≠ none := by
  unfold repairOne at h
  by_cases hc : d.time ≠ none ∧ d.end_time ≠ none
  · rw [if_pos hc] at h
    have hst' := Except.ok.inj h
    rw [← hst']
    intro x hx
    rcases List.mem_append.mp hx with h1 | h2
    · exact Or.inl h1
    · rcases List.mem_singleton.mp h2 with rfl
      exact Or.inr hc.2
  · rw [if_neg hc] at h
    unfold repairCore at h
    by_cases hall : ((stepIkou (entryPhrase d raw).toList
          (stepRange (entryPhrase d raw).toList d)).time = none
        ∧ (stepIkou (entryPhrase d raw).toList
          (stepRange (entryPhrase d raw).toList d)).end_time = none)
      ∨ strHas "終日".toList (entryPhrase d raw).toList = true
    · rw [if_pos hall] at h
      by_cases hdup : st.allday_dates.contains
          (alldayEntry (stepIkou (entryPhrase d raw).toList
            (stepRange (entryPhrase d raw).toList d))).date = true
      · rw [if_pos hdup] at h
        have hst' := Except.ok.inj h
        rw [← hst']
        exact fun x hx => Or.inl hx
      · rw [if_neg hdup] at h
        have htail := repairTail_endtime tt now (entryPhrase d raw).toList
          ⟨(alldayEntry (stepIkou (entryPhrase d raw).toList
              (stepRange (entryPhrase d raw).toList d))).date :: st.allday_dates,
            st.new_dates⟩
          (alldayEntry (stepIkou (entryPhrase d raw).toList
            (stepRange (entryPhrase d raw).toList d))) st'
          (Or.inl (by simp [alldayEntry])) h
        exact htail
    · rw [if_neg hall] at h
      push_neg at hall
      refine repairTail_endtime tt now (entryPhrase d raw).toList st _ st' ?_ h
      by_contra hcon
      push_neg at hcon
      exact absurd hcon.2 (hall.1 hcon.1)

/-- The repair loop preserves the everything-has-an-end-time invariant. -/
theorem runLoop_endtime (tt : Option String) (now : NowDT) (raw : String) :
    ∀ (ds : List Entry) (st st' : LoopState),
      runLoop tt now raw st ds = .ok st' →
      (∀ x ∈ st.new_dates, x.end_time ≠ none) →
      ∀ x ∈ st'.new_dates, x.end_time ≠ none := by
  intro ds
  induction ds with
  | nil =>
    intro st st' h hP
    have h' : Except.ok st = .ok st' := h
    rw [← Except.ok.inj h']
    exact hP
  | cons d ds ih =>
    intro st st' h hP
    have h' : (match repairOne tt now raw st d with
      | .ok st1 => runLoop tt now raw st1 ds
      | .error e => (.error e : Except Unit LoopState)) = .ok st' := h
    cases hro : repairOne tt now raw st d with
    | error e =>
      rw [hro] at h'
      exact absurd h' (by simp)
    | ok st1 =>
      rw [hro] at h'
      refine ih st1 st' h' ?_
      intro x hx
      rcases repairOne_endtime tt now raw st d st1 hro x hx with h1 | h1
      · exact hP x h1
      · exact h1

/-- The today-block appends only entries with both times set. -/
theorem special_kyou_endtime (now : NowDT) (raw : String) (nds : List Entry) :
    ∀ x ∈ special_kyou_block now raw nds, x ∈ nds ∨ x.end_time ≠ none := by
  unfold special_kyou_block
  split
  · split
    · intro x hx
      rcases List.mem_append.mp hx with h1 | h2
      · exact Or.inl h1
      · rcases List.mem_singleton.mp h2 with rfl
        exact Or.inr (by simp)
    · exact fun x hx => Or.inl hx
  · exact fun x hx => Or.inl hx

/-- Successful travel-event creation yields buffers with both times
set. -/
theorem create_travel_events_endtime (e : Entry) (tevs : List Entry)
    (h : create_travel_events e = .ok tevs) :
    ∀ te ∈ tevs, te.end_time ≠ none := by
  unfold create_travel_events at h
  cases h1 : getKey e.date with
  | error u => rw [h1, except_bind_error] at h; exact absurd h (by simp)
  | ok date_str =>
    rw [h1, except_bind_ok] at h
    cases h2 : getKey e.time with
    | error u => rw [h2, except_bind_error] at h; exact absurd h (by simp)
    | ok start_time =>
      rw [h2, except_bind_ok] at h
      cases h3 : getKey e.end_time with
      | error u => rw [h3, except_bind_error] at h; exact absurd h (by simp)
      | ok end_time =>
        rw [h3, except_bind_ok] at h
        cases h4 : parseEntryDT date_str start_time with
        | error u => rw [h4, except_bind_error] at h; exact absurd h (by simp)
        | ok sdt =>
          rw [h4, except_bind_ok] at h
          cases h5 : parseEntryDT date_str end_time with
          | error u => rw [h5, except_bind_error] at h; exact absurd h (by simp)
          | ok edt =>
            rw [h5, except_bind_ok] at h
            have htevs := Except.ok.inj h
            rw [← htevs]
            intro te hte
            rcases List.mem_cons.mp hte with rfl | hte'
            · simp
            · rcases List.mem_singleton.mp hte' with rfl
              simp

/-- Members of the buffer dedup-append fold come from the accumulator or
from the buffer list. -/
theorem travel_fold_mem (tevs : List Entry) :
    ∀ (acc : List Entry) (x : Entry),
      x ∈ tevs.foldl (fun a te =>
        if tripleExists a te.date te.time te.end_time then a else a ++ [te]) acc →
      x ∈ acc ∨ x ∈ tevs := by
  induction tevs with
  | nil => exact fun acc x hx => Or.inl hx
  | cons te tevs ih =>
    intro acc x hx
    rw [List.foldl_cons] at hx
    by_cases hdup : tripleExists acc te.date te.time te.end_time = true
    · rw [if_pos hdup] at hx
      rcases ih acc x hx with h1 | h1
      · exact Or.inl h1
      · exact Or.inr (List.mem_cons_of_mem _ h1)
    · rw [if_neg hdup] at hx
      rcases ih (acc ++ [te]) x hx with h1 | h1
      · rcases List.mem_append.mp h1 with h2 | h2
        · exact Or.inl h2
        · rcases List.mem_singleton.mp h2 with rfl
          exact Or.inr (List.mem_cons_self _ _)
      · exact Or.inr (List.mem_cons_of_mem _ h1)

/-- The travel loop preserves the end-time invariant. -/
theorem travelLoop_endtime (raw : String) :
    ∀ (l acc out : List Entry),
      travelLoop raw acc l = .ok out →
      (∀ x ∈ acc, x.end_time ≠ none) →
      (∀ x ∈ l, x.end_time ≠ none) →
      ∀ x ∈ out, x.end_time ≠ none := by
  intro l
  induction l with
  | nil =>
    intro acc out h hA _
    have h' : acc = out := Except.ok.inj h
    rw [← h']
    exact hA
  | cons d ds ih =>
    intro acc out h hA hL
    unfold travelLoop at h
    have hA1 : ∀ x ∈ acc ++ [d], x.end_time ≠ none := by
      intro x hx
      rcases List.mem_append.mp hx with h1 | h2
      · exact hA x h1
      · rw [List.mem_singleton.mp h2]
        exact hL d (List.mem_cons_self _ _)
    have hL' : ∀ x ∈ ds, x.end_time ≠ none :=
      fun x hx => hL x (List.mem_cons_of_mem _ hx)
    by_cases hk : should_add_travel_time raw = true
    · simp only [hk, if_true, pure_bind] at h
      cases hte : create_travel_events d with
      | error e =>
        rw [hte, except_bind_error] at h
        exact absurd h (by simp)
      | ok tevs =>
        rw [hte, except_bind_ok] at h
        refine ih _ out h ?_ hL'
        intro x hx
        rcases travel_fold_mem tevs (acc ++ [d]) x hx with h1 | h1
        · exact hA1 x h1
        · exact create_travel_events_endtime d tevs hte x h1
    · simp only [if_neg hk, pure_bind] at h
      exact ih _ out h hA1 hL'

/-- Claim C9 (counterexample): an entry carrying only an end time, with a
cue-free text, survives normalization with its start time still unset —
refuting the claim that every surviving entry has both times set. -/
theorem c9_counterexample :
    ¬ ∀ out, supplement_core none ⟨⟨2025, 7, 9⟩, 12, 0⟩ "hello"
        [⟨some "2025-07-10", none, some "10:00", none, none, none⟩] [] [] [] [] [] []
        = .ok out →
      ∀ e ∈ out, e.time ≠ none ∧ e.end_time ≠ none := by
  intro h
  exact (h [⟨some "2025-07-10", none, some "10:00", none, none, none⟩] rfl
    ⟨some "2025-07-10", none, some "10:00", none, none, none⟩
    (List.mem_singleton_self _)).1 rfl

/-- Claim C9 (amended): once normalization completes, every surviving
entry has its end_time set; the start_time may remain unset (exactly for
an entry that arrived with only an end time and whose phrase matches no
cue), as the counterexample shows. -/
theorem c9_endtime_amended (tt : Option String) (now : NowDT) (raw : String)
    (ds : List Entry) (ms1 : List M1) (ms2 ms3 : List M23) (ms4 : List M4)
    (ms5 : List M5) (msLines : List MLine) :
    ∀ out, supplement_core tt now raw ds ms1 ms2 ms3 ms4 ms5 msLines = .ok out →
      ∀ e ∈ out, e.end_time ≠ none := by
  intro out h
  rcases supplement_core_decomp tt now raw ds ms1 ms2 ms3 ms4 ms5 msLines out h
    with ⟨st, hrl, hrest⟩
  have hP : ∀ x ∈ st.new_dates, x.end_time ≠ none :=
    runLoop_endtime tt now raw ds ⟨[], []⟩ st hrl (by intro x hx; exact absurd hx (by simp))
  have hP7 : ∀ x ∈ special_kyou_block now raw st.new_dates, x.end_time ≠ none := by
    intro x hx
    rcases special_kyou_endtime now raw st.new_dates x hx with h1 | h1
    · exact hP x h1
    · exact h1
  rcases hrest with ⟨_, htr⟩ | ⟨_, hout⟩
  · unfold add_travel_time at htr
    by_cases hkw : travel_keywords_present raw = true
    · rw [if_pos hkw] at htr
      exact travelLoop_endtime raw _ [] out htr (by intro x hx; exact absurd hx (by simp)) hP7
    · rw [if_neg hkw] at htr
      rw [← Except.ok.inj htr]
      exact hP7
  · rw [← hout]
    exact hP7

theorem c9_endtime_amended_witness :
    (⟨some "2025-07-10", none, some "10:00", none, none, none⟩ : Entry).end_time ≠ none :=
  c9_endtime_amended none ⟨⟨2025, 7, 9⟩, 12, 0⟩ "hello"
    [⟨some "2025-07-10", none, some "10:00", none, none, none⟩] [] [] [] [] [] []
    [⟨some "2025-07-10", none, some "10:00", none, none, none⟩] rfl
    ⟨some "2025-07-10", none, some "10:00", none, none, none⟩
    (List.mem_singleton_self _)

/-- Reduction of the repair of one incomplete entry whose phrase carries
the 来週 cue (and no interfering range/以降/今日/本日 cue): the entry is
discarded and the following week's entries are appended. -/
theorem repairOne_raishu (tt : Option String) (now : NowDT) (raw : String)
    (st : LoopState) (d : Entry)
    (h1 : d.time = none) (h2 : d.end_time = none)
    (hr : scanRange (entryPhrase d raw).toList = none)
    (hi : scanIkou (entryPhrase d raw).toList = none)
    (hkyou : strHas "今日".toList (entryPhrase d raw).toList = false)
    (hhon : strHas "本日".toList (entryPhrase d raw).toList = false)
    (hk : strHas "来週".toList (entryPhrase d raw).toList = true)
    (hdd : st.allday_dates.contains d.date = false) :
    repairOne tt now raw st d
      = .ok ⟨d.date :: st.allday_dates, raishuAppend now st.new_dates⟩ := by
  have he1 : stepRange (entryPhrase d raw).toList d = d := by
    unfold stepRange
    rw [hr]
  have he2 : stepIkou (entryPhrase d raw).toList d = d := by
    unfold stepIkou
    split
    · rw [hi]
    · rfl
  unfold repairOne
  rw [if_neg (by simp [h1])]
  rw [he1, he2]
  unfold repairCore
  rw [if_pos (Or.inl ⟨h1, h2⟩)]
  have had : (alldayEntry d).date = d.date := rfl
  rw [if_neg (by rw [had, hdd]; simp)]
  unfold repairTail
  have h5 : stepWordDay "今日".toList now (entryPhrase d raw).toList
      (stepAshita now (entryPhrase d raw).toList (alldayEntry d))
      = .ok (stepAshita now (entryPhrase d raw).toList (alldayEntry d)) := by
    unfold stepWordDay
    rw [if_neg (by rw [hkyou]; simp)]
    rfl
  rw [h5, except_bind_ok]
  have h6 : stepWordDay "本日".toList now (entryPhrase d raw).toList
      (stepAshita now (entryPhrase d raw).toList (alldayEntry d))
      = .ok (stepAshita now (entryPhrase d raw).toList (alldayEntry d)) := by
    unfold stepWordDay
    rw [if_neg (by rw [hhon]; simp)]
    rfl
  rw [h6, except_bind_ok]
  rw [if_pos hk]
  rfl

/-- No week entries when the 終日 dedup fires first: a both-times-missing
entry whose phrase contains 来週 but whose date was already recorded in
`allday_dates` (here by a preceding cue-free all-day entry for the same
date) is dropped by the `continue` at ai_service.py line 174 before the
来週 branch runs, so none of the seven week dates appears in the output
even though all of them are absent from the working set — refuting the
unconditional reading of the claim. -/
theorem c7_raishu_counterexample :
    ¬ ∀ out, supplement_core none ⟨⟨2025, 7, 9⟩, 12, 0⟩ "x"
        [⟨some "2025-07-10", none, none, none, none, some "hello"⟩,
         ⟨some "2025-07-10", none, none, none, none, some "来週の空き時間"⟩]
        [] [] [] [] [] [] = .ok out →
      ∀ wd ∈ raishuWeekDates ⟨⟨2025, 7, 9⟩, 12, 0⟩, ∃ a ∈ out, a.date = some wd := by
  intro h
  have h2 := h [⟨some "2025-07-10", some "00:00", some "23:59", none,
    some "hello", some "hello"⟩] rfl "2025-07-14" (by decide)
  exact absurd h2 (by decide)

/-- Claim C7 (amended): an incomplete entry whose cue phrase contains
来週 — provided it escapes the earlier branches: both times missing but
its date not already recorded in `allday_dates` (otherwise the 終日
dedup at ai_service.py lines 172-174 drops it before the 来週 branch,
see the counterexample), no range or 以降 cue, no 今日/本日 cue — is
discarded and replaced by entries for the seven days of the following
week (next Monday through six days later), each 08:00-23:59, each added
only when no entry for that date is already present; in particular on
Wednesday 2025-07-09 the input 来週の空き時間 yields exactly the seven
entries 2025-07-14 (a Monday) through 2025-07-20 (a Sunday), each
08:00-23:59. -/
theorem c7_raishu_week (tt : Option String) (now : NowDT) (raw : String) :
    (∀ (st : LoopState) (d : Entry),
      d.time = none → d.end_time = none →
      scanRange (entryPhrase d raw).toList = none →
      scanIkou (entryPhrase d raw).toList = none →
      strHas "今日".toList (entryPhrase d raw).toList = false →
      strHas "本日".toList (entryPhrase d raw).toList = false →
      strHas "来週".toList (entryPhrase d raw).toList = true →
      st.allday_dates.contains d.date = false →
      ∃ adds, repairOne tt now raw st d
          = .ok ⟨d.date :: st.allday_dates, st.new_dates ++ adds⟩
        ∧ (∀ a ∈ adds, a.time = some "08:00" ∧ a.end_time = some "23:59"
            ∧ ∃ wd ∈ raishuWeekDates now, a.date = some wd)
        ∧ (∀ wd ∈ raishuWeekDates now, ∃ ex ∈ st.new_dates ++ adds, ex.date = some wd)
        ∧ (raishuWeekDates now).length = 7)
    ∧ supplement_core none ⟨⟨2025, 7, 9⟩, 12, 0⟩ "来週の空き時間"
        [⟨none, none, none, none, none, none⟩] [] [] [] [] [] []
        = .ok [weekEntry "2025-07-14", weekEntry "2025-07-15", weekEntry "2025-07-16",
               weekEntry "2025-07-17", weekEntry "2025-07-18", weekEntry "2025-07-19",
               weekEntry "2025-07-20"]
    ∧ pyWeekday ⟨2025, 7, 9⟩ = 2
    ∧ raishuWeekDates ⟨⟨2025, 7, 9⟩, 12, 0⟩
        = ["2025-07-14", "2025-07-15", "2025-07-16", "2025-07-17",
           "2025-07-18", "2025-07-19", "2025-07-20"]
    ∧ pyWeekday ⟨2025, 7, 14⟩ = 0 ∧ pyWeekday ⟨2025, 7, 20⟩ = 6 := by
  refine ⟨?_, by rfl, by decide, by rfl, by decide, by decide⟩
  intro st d h1 h2 hr hi hkyou hhon hk hdd
  rcases raishuFold_spec (raishuWeekDates now) st.new_dates with ⟨adds, ha1, ha2, ha3⟩
  refine ⟨adds, ?_, ha2, ?_, by simp [raishuWeekDates]⟩
  · rw [repairOne_raishu tt now raw st d h1 h2 hr hi hkyou hhon hk hdd]
    rw [show raishuAppend now st.new_dates = st.new_dates ++ adds from ha1]
  · intro wd hwd
    rcases ha3 wd hwd with ⟨ex, hex, hd⟩
    rw [ha1] at hex
    exact ⟨ex, hex, hd⟩

theorem c7_raishu_week_witness :
    ∃ adds, repairOne none ⟨⟨2025, 7, 9⟩, 12, 0⟩ "来週" ⟨[], []⟩
        ⟨none, none, none, none, none, none⟩
        = .ok ⟨(none : Option String) :: [], [] ++ adds⟩
      ∧ (∀ a ∈ adds, a.time = some "08:00" ∧ a.end_time = some "23:59"
          ∧ ∃ wd ∈ raishuWeekDates ⟨⟨2025, 7, 9⟩, 12, 0⟩, a.date = some wd)
      ∧ (∀ wd ∈ raishuWeekDates ⟨⟨2025, 7, 9⟩, 12, 0⟩,
          ∃ ex ∈ ([] : List Entry) ++ adds, ex.date = some wd)
      ∧ (raishuWeekDates ⟨⟨2025, 7, 9⟩, 12, 0⟩).length = 7 :=
  (c7_raishu_week none ⟨⟨2025, 7, 9⟩, 12, 0⟩ "来週").1 ⟨[], []⟩
    ⟨none, none, none, none, none, none⟩ rfl rfl (by decide) (by decide)
    (by decide) (by decide) (by decide) (by decide)

/-- Claim C8 (counterexample): two identical pre-completed all-day
entries for the same date both pass through the normalizer unchanged —
the all-day dedup is bypassed by entries that already carry both times,
so two all-day entries for one date survive. -/
theorem c8_counterexample :
    ¬ ∀ out, supplement_core none ⟨⟨2025, 7, 9⟩, 12, 0⟩ "x"
        [⟨some "2025-07-10", some "00:00", some "23:59", none, none, none⟩,
         ⟨some "2025-07-10", some "00:00", some "23:59", none, none, none⟩]
        [] [] [] [] [] [] = .ok out →
      ∀ dstr : Option String,
        out.countP (fun e => e.date == dstr && e.time == some "00:00"
          && e.end_time == some "23:59") ≤ 1 := by
  intro h
  have h2 := h [⟨some "2025-07-10", some "00:00", some "23:59", none, none, none⟩,
    ⟨some "2025-07-10", some "00:00", some "23:59", none, none, none⟩] rfl
    (some "2025-07-10")
  exact absurd h2 (by decide)

/-- An entry phrase free of every repair cue recognized by the loop. -/
def CueFree (raw : String) (e : Entry) : Prop :=
  scanRange (entryPhrase e raw).toList = none
  ∧ scanIkou (entryPhrase e raw).toList = none
  ∧ strHas "明日".toList (entryPhrase e raw).toList = false
  ∧ strHas "今日".toList (entryPhrase e raw).toList = false
  ∧ strHas "本日".toList (entryPhrase e raw).toList = false
  ∧ strHas "来週".toList (entryPhrase e raw).toList = false
  ∧ strHas "今日から1週間".toList (entryPhrase e raw).toList = false

instance (raw : String) (e : Entry) : Decidable (CueFree raw e) := by
  unfold CueFree
  infer_instance

/-- Reduction of the repair of one both-times-missing, cue-free entry:
the 終日 branch fires, and the entry is either dropped (date already
seen) or appended as an all-day entry (with a possible title fill). -/
theorem repairOne_allday (tt : Option String) (now : NowDT) (raw : String)
    (st : LoopState) (d : Entry)
    (h1 : d.time = none) (h2 : d.end_time = none) (hcf : CueFree raw d) :
    repairOne tt now raw st d
      = if st.allday_dates.contains d.date then .ok st
        else .ok ⟨d.date :: st.allday_dates,
          st.new_dates ++ [stepTitle tt (alldayEntry d)]⟩ := by
  obtain ⟨hr, hi, hash, hkyou, hhon, hrai, hish⟩ := hcf
  have he1 : stepRange (entryPhrase d raw).toList d = d := by
    unfold stepRange
    rw [hr]
  have he2 : stepIkou (entryPhrase d raw).toList d = d := by
    unfold stepIkou
    split
    · rw [hi]
    · rfl
  unfold repairOne
  rw [if_neg (by simp [h1])]
  rw [he1, he2]
  unfold repairCore
  rw [if_pos (Or.inl ⟨h1, h2⟩)]
  have had : (alldayEntry d).date = d.date := rfl
  rw [had]
  by_cases hdup : st.allday_dates.contains d.date = true
  · rw [if_pos hdup, if_pos hdup]
  · rw [if_neg hdup, if_neg hdup]
    unfold repairTail
    have ha : stepAshita now (entryPhrase d raw).toList (alldayEntry d) = alldayEntry d := by
      unfold stepAshita
      rw [if_neg (by rw [hash]; simp)]
    rw [ha]
    have h5 : stepWordDay "今日".toList now (entryPhrase d raw).toList (alldayEntry d)
        = .ok (alldayEntry d) := by
      unfold stepWordDay
      rw [if_neg (by rw [hkyou]; simp)]
      rfl
    rw [h5, except_bind_ok]
    have h6 : stepWordDay "本日".toList now (entryPhrase d raw).toList (alldayEntry d)
        = .ok (alldayEntry d) := by
      unfold stepWordDay
      rw [if_neg (by rw [hhon]; simp)]
      rfl
    rw [h6, except_bind_ok]
    rw [if_neg (by rw [hrai]; simp)]
    have hsh : stepIsshukan now (entryPhrase d raw).toList (alldayEntry d) = alldayEntry d := by
      unfold stepIsshukan
      rw [if_neg (by rw [hish]; simp)]
    rw [hsh]
    have hef : stepEndFill (alldayEntry d) = .ok (alldayEntry d) := rfl
    rw [hef, except_bind_ok]
    rfl

/-- The repair loop on both-times-missing, cue-free entries keeps the
output dates distinct and recorded in the all-day set. -/
theorem runLoop_allday_inv (tt : Option String) (now : NowDT) (raw : String) :
    ∀ (ds : List Entry) (st st' : LoopState),
      (∀ e ∈ ds, e.time = none ∧ e.end_time = none) →
      (∀ e ∈ ds, CueFree raw e) →
      runLoop tt now raw st ds = .ok st' →
      (∀ x ∈ st.new_dates, x.date ∈ st.allday_dates) →
      (st.new_dates.map Entry.date).Nodup →
      (∀ x ∈ st'.new_dates, x.date ∈ st'.allday_dates)
        ∧ (st'.new_dates.map Entry.date).Nodup := by
  intro ds
  induction ds with
  | nil =>
    intro st st' _ _ h hA hN
    have h' : Except.ok st = .ok st' := h
    rw [← Except.ok.inj h']
    exact ⟨hA, hN⟩
  | cons d ds ih =>
    intro st st' hα hβ h hA hN
    have hd1 := hα d (List.mem_cons_self _ _)
    have hd2 := hβ d (List.mem_cons_self _ _)
    have hro := repairOne_allday tt now raw st d hd1.1 hd1.2 hd2
    have h' : (match repairOne tt now raw st d with
      | .ok st1 => runLoop tt now raw st1 ds
      | .error e => (.error e : Except Unit LoopState)) = .ok st' := h
    by_cases hdup : st.allday_dates.contains d.date = true
    · rw [hro, if_pos hdup] at h'
      exact ih st st' (fun e he => hα e (List.mem_cons_of_mem _ he))
        (fun e he => hβ e (List.mem_cons_of_mem _ he)) h' hA hN
    · rw [hro, if_neg hdup] at h'
      have hdnm : d.date ∉ st.allday_dates := by
        intro hmem
        exact hdup (List.elem_eq_true_of_mem hmem)
      have he9 : (stepTitle tt (alldayEntry d)).date = d.date :=
        (stepTitle_fields tt (alldayEntry d)).2.2
      refine ih _ st' (fun e he => hα e (List.mem_cons_of_mem _ he))
        (fun e he => hβ e (List.mem_cons_of_mem _ he)) h' ?_ ?_
      · intro x hx
        rcases List.mem_append.mp hx with h1 | h1
        · exact List.mem_cons_of_mem _ (hA x h1)
        · rw [List.mem_singleton.mp h1, he9]
          exact List.mem_cons_self _ _
      · show ((st.new_dates ++ [stepTitle tt (alldayEntry d)]).map Entry.date).Nodup
        rw [List.map_append, List.nodup_append]
        refine ⟨hN, by simp, ?_⟩
        intro a ha hb
        simp only [List.map_cons, List.map_nil, List.mem_singleton] at hb
        rcases List.mem_map.mp ha with ⟨x, hx, hxd⟩
        rw [he9] at hb
        rw [hb] at hxd
        exact hdnm (by rw [← hxd]; exact hA x hx)

/-- The today-block either returns its input unchanged or, on an empty
input, produces at most a single entry. -/
theorem special_kyou_cases (now : NowDT) (raw : String) (nds : List Entry) :
    special_kyou_block now raw nds = nds
      ∨ ∃ x, special_kyou_block now raw nds = [x] := by
  unfold special_kyou_block
  split
  case isTrue hcond =>
    split
    case h_1 hour hsc =>
      have hemp : nds.isEmpty = true := by
        simp only [Bool.and_eq_true] at hcond
        exact hcond.2
      cases nds with
      | nil => exact Or.inr ⟨_, rfl⟩
      | cons a l => simp at hemp
    case h_2 => exact Or.inl rfl
  case isFalse => exact Or.inl rfl

/-- A list whose entry dates are distinct contains at most one entry per
date matching any refinement of date equality. -/
theorem countP_le_one_of_nodup_dates (l : List Entry)
    (hN : (l.map Entry.date).Nodup) (dstr : Option String) :
    l.countP (fun e => e.date == dstr && e.time == some "00:00"
      && e.end_time == some "23:59") ≤ 1 := by
  induction l with
  | nil => simp
  | cons e l ih =>
    rw [List.map_cons, List.nodup_cons] at hN
    rw [List.countP_cons]
    by_cases hp : (e.date == dstr && e.time == some "00:00"
        && e.end_time == some "23:59") = true
    · rw [if_pos hp]
      have hz : l.countP (fun x => x.date == dstr && x.time == some "00:00"
          && x.end_time == some "23:59") = 0 := by
        rw [List.countP_eq_zero]
        intro x hx hpx
        simp only [Bool.and_eq_true, beq_iff_eq] at hp hpx
        refine hN.1 ?_
        rw [hp.1.1, ← hpx.1.1]
        exact List.mem_map_of_mem Entry.date hx
      rw [hz]
    · rw [if_neg hp]
      have := ih hN.2
      omega

/-- Claim C8 (amended): the all-day dedup applies only to entries that
the normalizer itself repairs.  For an availability run on entries that
all arrive with both times missing and with no other cue in their
phrases, at most one all-day (00:00-23:59) entry per date survives; a
later such entry for an already-seen date is dropped.  Entries that
arrive with 00:00-23:59 already set bypass the dedup entirely (see the
counterexample), so the claim fails for arbitrary input lists. -/
theorem c8_allday_dedup_amended (tt : Option String) (now : NowDT) (raw : String)
    (ds : List Entry) (ms1 : List M1) (ms2 ms3 : List M23) (ms4 : List M4)
    (ms5 : List M5) (msLines : List MLine)
    (htt : tt ≠ some "add_event")
    (hα : ∀ e ∈ ds, e.time = none ∧ e.end_time = none)
    (hβ : ∀ e ∈ ds, CueFree raw e) :
    ∀ out, supplement_core tt now raw ds ms1 ms2 ms3 ms4 ms5 msLines = .ok out →
      ∀ dstr : Option String,
        out.countP (fun e => e.date == dstr && e.time == some "00:00"
          && e.end_time == some "23:59") ≤ 1 := by
  intro out h dstr
  rcases supplement_core_decomp tt now raw ds ms1 ms2 ms3 ms4 ms5 msLines out h
    with ⟨st, hrl, hrest⟩
  rcases hrest with ⟨htt', _⟩ | ⟨_, hout⟩
  · exact absurd htt' htt
  · have hinv := runLoop_allday_inv tt now raw ds ⟨[], []⟩ st hα hβ hrl
      (by intro x hx; exact absurd hx (by simp)) (by simp)
    rcases special_kyou_cases now raw st.new_dates with hsp | ⟨x, hsp⟩
    · rw [← hout, hsp]
      exact countP_le_one_of_nodup_dates st.new_dates hinv.2 dstr
    · rw [← hout, hsp]
      have hle : List.countP (fun e : Entry => e.date == dstr && e.time == some "00:00"
          && e.end_time == some "23:59") [x] ≤ ([x] : List Entry).length :=
        List.countP_le_length _
      simpa using hle

theorem c8_allday_dedup_amended_witness :
    ([⟨some "2025-07-10", some "00:00", some "23:59", none, none, none⟩] : List Entry).countP
      (fun e => e.date == some "2025-07-10" && e.time == some "00:00"
        && e.end_time == some "23:59") ≤ 1 :=
  c8_allday_dedup_amended none ⟨⟨2025, 7, 9⟩, 12, 0⟩ "x"
    [⟨some "2025-07-10", none, none, none, none, none⟩,
     ⟨some "2025-07-10", none, none, none, none, none⟩]
    [] [] [] [] [] [] (by decide) (by decide) (by decide)
    [⟨some "2025-07-10", some "00:00", some "23:59", none, none, none⟩] rfl
    (some "2025-07-10")

/-- No regex candidate appears when the guess is absent: with the guess
absent (`none`) and a raw text whose pattern-1 scan yields an extractable
candidate, `_supplement_times` returns the absent guess unchanged, and
with a guess lacking a `dates` field it returns that guess unchanged —
in neither case does the candidate appear in any output entry list,
contradicting the claimed fallback to the regex extractor. -/
theorem c3_fallback_counterexample :
    supplement_times none ⟨⟨2025, 7, 1⟩, 12, 0⟩ "7/10 9:00-10:00"
      [(7, 10, 9, "00", 10, "00")] [] [] [] [] [] = .ok none
    ∧ supplement_times (some ⟨some "availability", none⟩) ⟨⟨2025, 7, 1⟩, 12, 0⟩
        "7/10 9:00-10:00" [(7, 10, 9, "00", 10, "00")] [] [] [] [] []
      = .ok (some ⟨some "availability", none⟩) :=
  ⟨rfl, rfl⟩

/-- C3 (amended): when the upstream structured guess is absent (falsy)
or has no usable `dates` field, `_supplement_times` returns it unchanged
(the guard at ai_service.py lines 143-145): no regex fallback runs, for
any raw text and any match lists its scan could produce. -/
theorem c3_guard_amended (parsed : Option Parsed) (now : NowDT) (raw : String)
    (ms1 : List M1) (ms2 ms3 : List M23) (ms4 : List M4) (ms5 : List M5)
    (msLines : List MLine)
    (h : parsed = none ∨ ∃ p, parsed = some p ∧ p.dates = none) :
    supplement_times parsed now raw ms1 ms2 ms3 ms4 ms5 msLines = .ok parsed := by
  rcases h with rfl | ⟨p, rfl, hd⟩
  · rfl
  · obtain ⟨t0, d0⟩ := p
    have hd' : d0 = none := hd
    subst hd'
    rfl

theorem c3_guard_amended_witness :
    supplement_times (some ⟨some "availability", none⟩) ⟨⟨2025, 7, 1⟩, 12, 0⟩
      "7/10 9:00-10:00" [(7, 10, 9, "00", 10, "00")] [] [] [] [] []
      = .ok (some ⟨some "availability", none⟩) :=
  c3_guard_amended (some ⟨some "availability", none⟩) ⟨⟨2025, 7, 1⟩, 12, 0⟩
    "7/10 9:00-10:00" [(7, 10, 9, "00", 10, "00")] [] [] [] [] []
    (Or.inr ⟨⟨some "availability", none⟩, rfl, rfl⟩)
